/-
  Verification of the email-scraper engine (scraper.py) against its
  natural-language specification.

  Strings are modelled as `List Char` (ASCII texts); Python functions from
  scraper.py are translated into executable Lean definitions, keeping the
  source names where possible.
-/
import Mathlib

/-- Texts (Python `str`) are modelled as lists of characters. -/
abbrev Txt := List Char

/-! ## Generic association-list update (models Python dict assignment) -/

/-- `updateAssoc l k v` models `d[k] = v` on an association list. -/
def updateAssoc {β : Type} (l : List (String × β)) (k : String) (v : β) :
    List (String × β) :=
  match l with
  | [] => [(k, v)]
  | (k0, v0) :: rest =>
      if k0 = k then (k, v) :: rest else (k0, v0) :: updateAssoc rest k v

theorem lookup_updateAssoc_self {β : Type} (l : List (String × β)) (k : String) (v : β) :
    (updateAssoc l k v).lookup k = some v := by
  induction l with
  | nil => simp [updateAssoc, List.lookup]
  | cons hd tl ih =>
      obtain ⟨k0, v0⟩ := hd
      by_cases h : k0 = k
      · simp [updateAssoc, h, List.lookup]
      · simp only [updateAssoc, if_neg h, List.lookup]
        have : (k == k0) = false := by
          simp [beq_iff_eq]
          exact fun hh => h hh.symm
        simp [this, ih]

theorem lookup_updateAssoc_ne {β : Type} (l : List (String × β)) (k k' : String) (v : β)
    (h : k' ≠ k) : (updateAssoc l k v).lookup k' = l.lookup k' := by
  induction l with
  | nil =>
      have : (k' == k) = false := by simp [beq_iff_eq]; exact h
      simp [updateAssoc, List.lookup, this]
  | cons hd tl ih =>
      obtain ⟨k0, v0⟩ := hd
      by_cases hk : k0 = k
      · subst hk
        have hne : (k' == k0) = false := by simp [beq_iff_eq]; exact h
        simp [updateAssoc, List.lookup, hne]
      · simp only [updateAssoc, if_neg hk, List.lookup]
        by_cases hh : k' = k0
        · subst hh; simp
        · have hne : (k' == k0) = false := by simp [beq_iff_eq]; exact hh
          simp [hne, ih]

/-! ## URL normalizer (scraper.py `normalize_url`, lines 144-147)

```
def normalize_url(url):
    if not url.startswith(('http://', 'https://')):
        url = 'https://' + url
    return url.rstrip('/')
```
-/

/-- Python `s.rstrip('/')`: remove every trailing `'/'`. -/
def rstripSlash (u : Txt) : Txt :=
  (u.reverse.dropWhile (fun c => c = '/')).reverse

/-- The exact prefix test performed by `normalize_url`. -/
def startsHttp (u : Txt) : Bool :=
  ("http://".toList.isPrefixOf u) || ("https://".toList.isPrefixOf u)

/-- scraper.py `normalize_url`. -/
def normalize_url (u : Txt) : Txt :=
  rstripSlash (if startsHttp u then u else "https://".toList ++ u)

/-- Modelled from the spec's words: a URI scheme is present when the string
starts with a letter followed by letters/digits/`+`/`-`/`.` and then `:`
(standard URI authority parsing, RFC 3986). Used only to state what the
spec/claim calls "a scheme is present". -/
def schemeTail : Txt → Bool
  | [] => false
  | c :: rest =>
      if c = ':' then true
      else (c.isAlphanum || c = '+' || c = '-' || c = '.') && schemeTail rest

/-- Modelled from the spec: `specHasScheme u` holds when `u` begins with a
URI scheme in the RFC sense. -/
def specHasScheme : Txt → Bool
  | [] => false
  | c :: rest => c.isAlpha && schemeTail rest

theorem head?_dropWhile_not {p : Char → Bool} (l : Txt) :
    ∀ c, (l.dropWhile p).head? = some c → p c = false := by
  induction l with
  | nil => intro c h; simp [List.dropWhile] at h
  | cons hd tl ih =>
      intro c h
      by_cases hp : p hd
      · simp [List.dropWhile, hp] at h
        exact ih c h
      · simp [List.dropWhile, hp] at h
        subst h
        simpa using hp

theorem rstripSlash_no_trailing (u : Txt) :
    (rstripSlash u).reverse.head? ≠ some '/' := by
  intro h
  unfold rstripSlash at h
  rw [List.reverse_reverse] at h
  have := head?_dropWhile_not (p := fun c => c = '/') u.reverse _ h
  simp at this

theorem rstripSlash_recover (u : Txt) :
    ∃ n, u = rstripSlash u ++ List.replicate n '/' := by
  refine ⟨(u.reverse.takeWhile (fun c => c = '/')).length, ?_⟩
  unfold rstripSlash
  have hsplit : u.reverse = u.reverse.takeWhile (fun c => c = '/') ++
      u.reverse.dropWhile (fun c => c = '/') := (List.takeWhile_append_dropWhile _ _).symm
  have hrepl : u.reverse.takeWhile (fun c => c = '/') =
      List.replicate (u.reverse.takeWhile (fun c => c = '/')).length '/' := by
    apply List.eq_replicate_of_mem
    intro c hc
    have := List.mem_takeWhile_imp hc
    simpa using this
  calc u = u.reverse.reverse := by rw [List.reverse_reverse]
    _ = (u.reverse.takeWhile (fun c => c = '/') ++
          u.reverse.dropWhile (fun c => c = '/')).reverse := by rw [← hsplit]
    _ = (u.reverse.dropWhile (fun c => c = '/')).reverse ++
          (u.reverse.takeWhile (fun c => c = '/')).reverse := by
            rw [List.reverse_append]
    _ = (u.reverse.dropWhile (fun c => c = '/')).reverse ++
          List.replicate (u.reverse.takeWhile (fun c => c = '/')).length '/' := by
            conv_lhs => rw [hrepl]
            rw [List.reverse_replicate]

/-- C9 counterexample: `"ftp://example.com"` has a scheme (in the URI sense the
claim speaks of), yet `normalize_url` does not return it unchanged — it
prepends `https://` anyway, contradicting "prepended exactly when no scheme is
present" and "an input that already has a scheme is returned unchanged except
for trailing-slash stripping". -/
theorem C9_counterexample :
    specHasScheme ("ftp://example.com".toList) = true ∧
    normalize_url ("ftp://example.com".toList) ≠
      rstripSlash ("ftp://example.com".toList) ∧
    normalize_url ("ftp://example.com".toList) =
      "https://ftp://example.com".toList := by
  refine ⟨by decide, by decide, by decide⟩

/-- C9 (amended): `normalize_url` is a total, pure, deterministic function; it
prepends `https://` exactly when the input does not already start with
`http://` or `https://` (so inputs with a different scheme, e.g. `ftp://`,
still get `https://` prepended), and strips every trailing slash: the result
never ends in `'/'`, and the (possibly prepended) input is recovered from the
result by appending some number of slashes. -/
theorem C9_normalize_amended (u : Txt) :
    (startsHttp u = true → normalize_url u = rstripSlash u) ∧
    (startsHttp u = false →
      normalize_url u = rstripSlash ("https://".toList ++ u)) ∧
    (normalize_url u).reverse.head? ≠ some '/' ∧
    (∃ n, (if startsHttp u then u else "https://".toList ++ u) =
      normalize_url u ++ List.replicate n '/') := by
  refine ⟨?_, ?_, ?_, ?_⟩
  · intro h; simp [normalize_url, h]
  · intro h; simp [normalize_url, h]
  · unfold normalize_url; exact rstripSlash_no_trailing _
  · unfold normalize_url; exact rstripSlash_recover _

/-- Witness for C9_normalize_amended at a concrete input. -/
theorem C9_normalize_amended_witness :
    normalize_url ("Example.com/".toList) = "https://Example.com".toList := by
  have h := (C9_normalize_amended ("Example.com/".toList)).2.1 (by decide)
  rw [h]; decide

/-! ## Terminal run status (scraper.py `start_scraping` tail, lines 1057-1078)

```
project = Project.query.get(project_id)
if project and not project.paused:
    actual_processed = ScrapedData.query.filter_by(project_id=project_id).count()
    actual_total = project.total_urls or ProjectURL.query...count()
    project.processed_urls = actual_processed
    project.progress = int((actual_processed / actual_total) * 100) if actual_total > 0 else 0
    if actual_processed >= actual_total:
        project.status = 'completed'
        project.progress = 100
    else:
        project.status = 'error'
```
-/

inductive RunStatus
  | running
  | completed
  | paused
  | error
deriving DecidableEq, Repr

structure RunFinal where
  status : RunStatus
  progress : Nat
deriving DecidableEq, Repr

/-- The terminal-status block of `start_scraping` executed after all batches
are exhausted.  Returns `none` when the block is skipped (run paused). -/
def finalize_run (paused : Bool) (actualProcessed actualTotal : Nat) :
    Option RunFinal :=
  if paused then none
  else if actualProcessed ≥ actualTotal then
    some { status := RunStatus.completed, progress := 100 }
  else
    some { status := RunStatus.error,
           progress := if actualTotal > 0 then actualProcessed * 100 / actualTotal else 0 }

/-- C7: when all batches are exhausted and the run was not paused, the terminal
status is `completed` with progress 100 exactly when the persisted-record count
reaches the total URL count; with fewer records the terminal status is `error`
(a distinct incomplete state), never `completed`. -/
theorem C7_terminal_status (processed total : Nat) :
    (processed ≥ total →
      finalize_run false processed total =
        some { status := RunStatus.completed, progress := 100 }) ∧
    (processed < total →
      ∃ pr, finalize_run false processed total =
          some { status := RunStatus.error, progress := pr } ∧
        RunStatus.error ≠ RunStatus.completed) := by
  constructor
  · intro h
    simp [finalize_run, h]
  · intro h
    refine ⟨if total > 0 then processed * 100 / total else 0, ?_, by decide⟩
    have : ¬ processed ≥ total := Nat.not_le.mpr h
    simp [finalize_run, this]

/-- Witness for C7_terminal_status at concrete inputs. -/
theorem C7_terminal_status_witness :
    finalize_run false 5 5 = some { status := RunStatus.completed, progress := 100 } ∧
    finalize_run false 3 5 = some { status := RunStatus.error, progress := 60 } := by
  constructor
  · exact (C7_terminal_status 5 5).1 (by decide)
  · obtain ⟨pr, h, -⟩ := (C7_terminal_status 3 5).2 (by decide)
    have hpr : pr = 60 := by
      have := h
      simp [finalize_run] at this
      omega
    rw [← hpr]; exact h

/-! ## Proxy pool (scraper.py `get_proxy` / `record_proxy_failure`, lines 812-825)

```
def get_proxy():
    if not use_proxies or not proxies_list:
        return None
    with proxy_lock:
        return random.choice(proxies_list) if proxies_list else None

def record_proxy_failure(proxy):
    if not proxy:
        return
    with proxy_lock:
        proxy_failures[proxy] += 1
        if proxy_failures[proxy] >= fail_threshold and proxy in proxies_list:
            proxies_list.remove(proxy)
```
All mutations happen under `proxy_lock`; a run is modelled as the serialized
sequence of `record_proxy_failure` calls (the only mutations of the pool).
-/

structure ProxyState where
  proxies : List String
  failures : List (String × Nat)
deriving Repr

/-- `proxy_failures[p]` with `defaultdict(int)` semantics. -/
def failCount (fs : List (String × Nat)) (p : String) : Nat :=
  (fs.lookup p).getD 0

def record_proxy_failure (threshold : Nat) (p : String) (st : ProxyState) :
    ProxyState :=
  if failCount st.failures p + 1 ≥ threshold ∧ p ∈ st.proxies then
    { proxies := st.proxies.erase p,
      failures := updateAssoc st.failures p (failCount st.failures p + 1) }
  else
    { proxies := st.proxies,
      failures := updateAssoc st.failures p (failCount st.failures p + 1) }

/-- A run segment: fold the recorded failures (for arbitrary proxies, in
order) over the shared state. -/
def applyFailures (threshold : Nat) (es : List String) (st : ProxyState) :
    ProxyState :=
  es.foldl (fun s e => record_proxy_failure threshold e s) st

/-- `get_proxy` under the lock: `random.choice` returns some element of the
current list; the choice is modelled by an arbitrary index. -/
def get_proxy (st : ProxyState) (i : Nat) : Option String :=
  st.proxies.get? i

theorem record_failures_eq (threshold : Nat) (p : String) (st : ProxyState) :
    (record_proxy_failure threshold p st).failures =
      updateAssoc st.failures p (failCount st.failures p + 1) := by
  unfold record_proxy_failure
  split <;> rfl

theorem record_failCount_self (threshold : Nat) (p : String) (st : ProxyState) :
    failCount (record_proxy_failure threshold p st).failures p =
      failCount st.failures p + 1 := by
  rw [record_failures_eq]
  unfold failCount
  rw [lookup_updateAssoc_self]
  rfl

theorem record_failCount_ne (threshold : Nat) (p q : String) (st : ProxyState)
    (h : q ≠ p) :
    failCount (record_proxy_failure threshold p st).failures q =
      failCount st.failures q := by
  rw [record_failures_eq]
  unfold failCount
  rw [lookup_updateAssoc_ne _ _ _ _ h]

theorem record_proxies_sublist (threshold : Nat) (p : String) (st : ProxyState) :
    (record_proxy_failure threshold p st).proxies.Sublist st.proxies := by
  unfold record_proxy_failure
  by_cases hc : failCount st.failures p + 1 ≥ threshold ∧ p ∈ st.proxies
  · simp only [hc, and_self, ge_iff_le, if_pos]
    exact (List.erase_sublist _ _)
  · simp only [hc, ge_iff_le, if_neg]
    exact List.Sublist.refl _

theorem applyFailures_sublist (threshold : Nat) (es : List String) (st : ProxyState) :
    (applyFailures threshold es st).proxies.Sublist st.proxies := by
  induction es generalizing st with
  | nil => simp [applyFailures]
  | cons e rest ih =>
      have h1 := record_proxies_sublist threshold e st
      have h2 := ih (record_proxy_failure threshold e st)
      exact h2.trans h1

theorem record_nodup (threshold : Nat) (p : String) (st : ProxyState)
    (h : st.proxies.Nodup) :
    (record_proxy_failure threshold p st).proxies.Nodup := by
  unfold record_proxy_failure
  by_cases hc : failCount st.failures p + 1 ≥ threshold ∧ p ∈ st.proxies
  · simp only [hc, and_self, ge_iff_le, if_pos]
    exact h.erase p
  · simpa [hc] using h

/-- Invariant: any proxy still in the pool has strictly fewer than `threshold`
recorded failures (holds initially when the failure map is empty and
`threshold ≥ 1`). -/
def PoolInv (threshold : Nat) (st : ProxyState) : Prop :=
  ∀ q, q ∈ st.proxies → failCount st.failures q < threshold

theorem record_preserves_inv (threshold : Nat) (p : String) (st : ProxyState)
    (hnd : st.proxies.Nodup) (hinv : PoolInv threshold st) :
    PoolInv threshold (record_proxy_failure threshold p st) := by
  intro q hq
  have hqmem : q ∈ st.proxies :=
    (record_proxies_sublist threshold p st).subset hq
  by_cases hqp : q = p
  · subst hqp
    rw [record_failCount_self]
    by_cases hc : failCount st.failures q + 1 ≥ threshold ∧ q ∈ st.proxies
    · exfalso
      have heq : (record_proxy_failure threshold q st).proxies = st.proxies.erase q := by
        unfold record_proxy_failure
        rw [if_pos hc]
      rw [heq] at hq
      have := (List.Nodup.mem_erase_iff hnd).mp hq
      exact this.1 rfl
    · have hnot : ¬ failCount st.failures q + 1 ≥ threshold := by
        intro hge; exact hc ⟨hge, hqmem⟩
      omega
  · rw [record_failCount_ne _ _ _ _ hqp]
    exact hinv q hqmem

theorem applyFailures_evicts (threshold : Nat) (p : String) :
    ∀ (es : List String) (st : ProxyState), st.proxies.Nodup →
      PoolInv threshold st →
      threshold ≤ failCount st.failures p + es.count p →
      p ∉ (applyFailures threshold es st).proxies := by
  intro es
  induction es with
  | nil =>
      intro st hnd hinv hcnt hmem
      simp [applyFailures] at hmem
      have := hinv p hmem
      simp [List.count_nil] at hcnt
      omega
  | cons e rest ih =>
      intro st hnd hinv hcnt
      have hstep : applyFailures threshold (e :: rest) st =
          applyFailures threshold rest (record_proxy_failure threshold e st) := rfl
      rw [hstep]
      apply ih
      · exact record_nodup threshold e st hnd
      · exact record_preserves_inv threshold e st hnd hinv
      · by_cases hep : e = p
        · subst hep
          rw [record_failCount_self]
          have : (e :: rest).count e = rest.count e + 1 := by
            simp [List.count_cons]
          omega
        · rw [record_failCount_ne _ _ _ _ (fun hh => hep hh.symm)]
          have : (e :: rest).count p = rest.count p := by
            simp [List.count_cons, hep]
          omega

theorem applyFailures_survives (threshold : Nat) (p : String) :
    ∀ (es : List String) (st : ProxyState),
      failCount st.failures p + es.count p < threshold →
      p ∈ st.proxies →
      p ∈ (applyFailures threshold es st).proxies := by
  intro es
  induction es with
  | nil => intro st _ hmem; simpa [applyFailures] using hmem
  | cons e rest ih =>
      intro st hcnt hmem
      have hstep : applyFailures threshold (e :: rest) st =
          applyFailures threshold rest (record_proxy_failure threshold e st) := rfl
      rw [hstep]
      by_cases hep : e = p
      · subst hep
        have hcown : (e :: rest).count e = rest.count e + 1 := by
          simp [List.count_cons]
        have hlt : failCount st.failures e + 1 < threshold ∨
            failCount st.failures e + 1 + rest.count e < threshold := by
          right; omega
        apply ih
        · rw [record_failCount_self]; omega
        · unfold record_proxy_failure
          have hno : ¬ (failCount st.failures e + 1 ≥ threshold ∧ e ∈ st.proxies) := by
            intro hcon; omega
          rw [if_neg hno]
          exact hmem
      · have hcnt' : (e :: rest).count p = rest.count p := by
          simp [List.count_cons, hep]
        apply ih
        · rw [record_failCount_ne _ _ _ _ (fun hh => hep hh.symm)]
          omega
        · unfold record_proxy_failure
          split
          · exact List.mem_erase_of_ne (fun hh => hep hh.symm) |>.mpr hmem
          · exact hmem

/-- C5: in a run starting from a fresh failure map, a proxy in the active pool
that accumulates exactly `threshold` recorded failures is removed from the pool
and is never returned by any later `get_proxy` call, no matter what further
failures are recorded (eviction is permanent); a proxy with only
`threshold - 1` recorded failures is still selectable. -/
theorem C5_proxy_eviction (pool : List String) (p : String) (threshold : Nat)
    (hth : 1 ≤ threshold) (hnd : pool.Nodup) (hmem : p ∈ pool) :
    (∀ es more : List String, es.count p = threshold →
      ∀ i, get_proxy (applyFailures threshold (es ++ more)
              { proxies := pool, failures := [] }) i ≠ some p) ∧
    (∀ es : List String, es.count p = threshold - 1 →
      ∃ i, get_proxy (applyFailures threshold es
              { proxies := pool, failures := [] }) i = some p) := by
  constructor
  · intro es more hcnt i hget
    have hinv : PoolInv threshold { proxies := pool, failures := [] } := by
      intro q _
      simp [failCount, List.lookup]
      omega
    have hcnt' : threshold ≤ failCount ([] : List (String × Nat)) p +
        (es ++ more).count p := by
      have : (es ++ more).count p = es.count p + more.count p := by
        simp [List.count_append]
      simp [failCount, List.lookup]
      omega
    have habs := applyFailures_evicts threshold p (es ++ more)
      { proxies := pool, failures := [] } hnd hinv hcnt'
    have hg : (applyFailures threshold (es ++ more)
        { proxies := pool, failures := [] }).proxies.get? i = some p := hget
    exact habs (List.get?_mem hg)
  · intro es hcnt
    have hsurv := applyFailures_survives threshold p es
      { proxies := pool, failures := [] }
      (by simp [failCount, List.lookup]; omega) hmem
    obtain ⟨i, hi⟩ := List.get?_of_mem hsurv
    exact ⟨i, hi⟩

/-- Witness for C5_proxy_eviction at concrete inputs: threshold 2, pool
`["a", "b"]`; after two failures of `"a"` it is never selected again, after a
single failure it is still selectable. -/
theorem C5_proxy_eviction_witness :
    (∀ i, get_proxy (applyFailures 2 (["a", "a"] ++ ["b"])
        { proxies := ["a", "b"], failures := [] }) i ≠ some "a") ∧
    (∃ i, get_proxy (applyFailures 2 ["a"]
        { proxies := ["a", "b"], failures := [] }) i = some "a") := by
  have h := C5_proxy_eviction ["a", "b"] "a" 2 (by decide) (by decide) (by decide)
  constructor
  · intro i
    exact h.1 ["a", "a"] ["b"] (by decide) i
  · exact h.2 ["a"] (by decide)

/-! ## Resume / skip-already-scraped (scraper.py lines 806-807 and 901-905)

```
scraped_records = ScrapedData.query...with_entities(ScrapedData.homepage_url).all()
already_scraped = {normalize_url(r.homepage_url) for r in scraped_records}
...
homepage_url = normalize_url(project_url.url)
if homepage_url in already_scraped:
    return
result = scrape_with_fallback(homepage_url, ...)
```
A (non-paused) run over the pending rows performs one fetch attempt per row
whose normalized URL is not in `already_scraped`.
-/

/-- The normalized homepages that actually trigger a fetch during a run. -/
def fetchAttempts (pending : List Txt) (already : List Txt) : List Txt :=
  (pending.map normalize_url).filter (fun h => decide (h ∉ already))

theorem length_filter_not_add {α : Type} (p : α → Bool) (l : List α) :
    (l.filter (fun a => !(p a))).length + (l.filter p).length = l.length := by
  induction l with
  | nil => rfl
  | cons x xs ih =>
      by_cases hx : p x = true
      · have h1 : (x :: xs).filter (fun a => !(p a)) = xs.filter (fun a => !(p a)) := by
          simp [List.filter_cons, hx]
        have h2 : (x :: xs).filter p = x :: xs.filter p := by
          simp [List.filter_cons, hx]
        rw [h1, h2]
        simp only [List.length_cons]
        omega
      · have hx' : p x = false := by simpa using hx
        have h1 : (x :: xs).filter (fun a => !(p a)) = x :: xs.filter (fun a => !(p a)) := by
          simp [List.filter_cons, hx']
        have h2 : (x :: xs).filter p = xs.filter p := by
          simp [List.filter_cons, hx']
        rw [h1, h2]
        simp only [List.length_cons]
        omega

/-- C8: for a run over `M` pending homepages of which `N` already have
aggregated records (matched by normalized URL), (i) exactly `M − N` homepages
trigger new fetch attempts, (ii) every already-aggregated homepage is skipped
without any fetch, and (iii) if the pending homepages are distinct (after
normalization) each homepage is fetched at most once per run. -/
theorem C8_resume_idempotence (pending already : List Txt) :
    (fetchAttempts pending already).length =
      pending.length -
        ((pending.map normalize_url).filter (fun h => decide (h ∈ already))).length ∧
    (∀ u ∈ pending, normalize_url u ∈ already →
      normalize_url u ∉ fetchAttempts pending already) ∧
    ((pending.map normalize_url).Nodup →
      (fetchAttempts pending already).Nodup) := by
  refine ⟨?_, ?_, ?_⟩
  · have h := length_filter_not_add (fun h => decide (h ∈ already))
      (pending.map normalize_url)
    unfold fetchAttempts
    have hcongr : (pending.map normalize_url).filter (fun h => decide (h ∉ already)) =
        (pending.map normalize_url).filter
          (fun h => !(decide (h ∈ already))) := by
      apply List.filter_congr
      intro x _
      simp
    rw [hcongr]
    have hlen : (pending.map normalize_url).length = pending.length :=
      List.length_map _ _
    omega
  · intro u hu hmem hcon
    unfold fetchAttempts at hcon
    have := (List.mem_filter.mp hcon).2
    simp at this
    exact this hmem
  · intro hnd
    exact List.Nodup.filter (fun h => decide (h ∉ already)) hnd

/-- Witness for C8_resume_idempotence at concrete inputs: two pending rows,
one already aggregated, so exactly one fetch attempt. -/
theorem C8_resume_idempotence_witness :
    (fetchAttempts ["a.com".toList, "b.com".toList]
        ["https://a.com".toList]).Nodup ∧
    (fetchAttempts ["a.com".toList, "b.com".toList]
        ["https://a.com".toList]).length = 1 := by
  have h := C8_resume_idempotence ["a.com".toList, "b.com".toList]
    ["https://a.com".toList]
  refine ⟨h.2.2 (by decide), ?_⟩
  rw [h.1]
  decide

/-! ## Internal-link crawl set (scraper.py `process_homepage`, lines 930-967)

```
links_to_scrape = []
links_to_scrape.extend(page_data['links']['contact'])
links_to_scrape.extend(page_data['links']['footer'])
links_to_scrape.extend(page_data['links']['header'])
links_to_scrape.extend(page_data['links']['body'])

exclusion_patterns = [p.strip().lower() for p in raw_patterns if p.strip()]
if exclusion_patterns:
    def matches_exclusion(url, patterns):
        url_lower = url.lower()
        for pattern in patterns:
            if '*' in pattern:
                regex_pattern = re.escape(pattern).replace(r'\*', '.*')
                if re.search(regex_pattern, url_lower): return True
            else:
                if pattern in url_lower: return True
        return False
    links_to_scrape = [l for l in links_to_scrape if not matches_exclusion(l, ...)]

links_to_scrape = list(dict.fromkeys(links_to_scrape))[:max_internal]
```
with `max_internal = settings.max_internal_links or 25` (Python truthiness:
`None`/`0` both fall back to 25; both modelled by `0` here).
-/

/-- Python `s.lower()` (ASCII). -/
def lowerTxt (s : Txt) : Txt := s.map Char.toLower

/-- Split a wildcard pattern at `'*'`: the literal pieces between the stars
(`re.escape(pattern).replace(r'\*', '.*')` turns the pattern into those
pieces joined by `.*`). -/
def splitStar : Txt → List Txt
  | [] => [[]]
  | c :: rest =>
      if c = '*' then [] :: splitStar rest
      else
        match splitStar rest with
        | [] => [[c]]
        | p :: ps => (c :: p) :: ps

/-- The suffix that follows the first (leftmost) occurrence of `p` in `s`,
or `none` when `p` does not occur. -/
def findAfterSub (p : Txt) : Txt → Option Txt
  | [] => if p.isEmpty then some [] else none
  | c :: rest =>
      if p.isPrefixOf (c :: rest) then some ((c :: rest).drop p.length)
      else findAfterSub p rest

/-- `re.search` of the regex `p₀.*p₁.*…*pₙ` (literal pieces `pᵢ`): the pieces
occur in order, without overlap.  Taking the leftmost occurrence of each piece
in turn is equivalent to the existential regex semantics, because an earlier
occurrence always leaves a longer suffix for the remaining pieces. -/
def wildMatch : List Txt → Txt → Bool
  | [], _ => true
  | p :: ps, s =>
      match findAfterSub p s with
      | some t => wildMatch ps t
      | none => false

/-- Python `sub in s` (substring containment). -/
def containsSub (s sub : Txt) : Bool :=
  (findAfterSub sub s).isSome

/-- `matches_exclusion` from `process_homepage` (patterns are already
lower-cased by the parsing step). -/
def matchesExclusion (url : Txt) (patterns : List Txt) : Bool :=
  patterns.any (fun pat =>
    if pat.contains '*' then wildMatch (splitStar pat) (lowerTxt url)
    else containsSub (lowerTxt url) pat)

/-- `dict.fromkeys` de-duplication: keep the first occurrence of each element,
in order. -/
def dedupFirstAux (seen : List Txt) : List Txt → List Txt
  | [] => []
  | x :: xs =>
      if x ∈ seen then dedupFirstAux seen xs
      else x :: dedupFirstAux (x :: seen) xs

def dedupFirst (l : List Txt) : List Txt := dedupFirstAux [] l

/-- The crawl-list computation of `process_homepage` (patterns given after the
strip/split/lower parsing step, which lower-cases each kept pattern). -/
def links_to_scrape (contact footer header body : List Txt)
    (exclusionPatterns : List Txt) (maxInternalLinks : Nat) : List Txt :=
  (dedupFirst
    (if (exclusionPatterns.map lowerTxt).isEmpty then
      contact ++ footer ++ header ++ body
    else
      (contact ++ footer ++ header ++ body).filter
        (fun l => !(matchesExclusion l (exclusionPatterns.map lowerTxt))))).take
    (if maxInternalLinks = 0 then 25 else maxInternalLinks)

/-- The crawl set as the spec describes it: concatenate contact, footer,
header, body (in that order), remove links matching a configured exclusion
pattern, de-duplicate preserving first occurrence, truncate to
`max_internal_links`. -/
def crawlSetSpec (contact footer header body : List Txt)
    (exclusionPatterns : List Txt) (maxInternalLinks : Nat) : List Txt :=
  (dedupFirst
    ((contact ++ footer ++ header ++ body).filter
      (fun l => !(matchesExclusion l (exclusionPatterns.map lowerTxt))))).take
    maxInternalLinks

theorem matchesExclusion_nil (l : Txt) : matchesExclusion l [] = false := rfl

/-- C1: for a positive `max_internal_links` setting, the crawl list computed by
`process_homepage` is exactly the spec's pipeline — concatenation in
contact, footer, header, body order, exclusion filtering (wildcard patterns as
regex/substring, plain patterns as substring), first-occurrence
de-duplication, truncation — and in particular with `max_internal_links = 2`
and candidates of 1 contact, 1 footer and 2 body links (no exclusions) the
crawl set is exactly the contact link followed by the footer link. -/
theorem C1_crawl_list (contact footer header body patterns : List Txt)
    (maxI : Nat) (h : 0 < maxI) :
    links_to_scrape contact footer header body patterns maxI =
      crawlSetSpec contact footer header body patterns maxI ∧
    links_to_scrape ["https://ex.com/contact".toList]
        ["https://ex.com/privacy".toList] []
        ["https://ex.com/a".toList, "https://ex.com/b".toList] [] 2 =
      ["https://ex.com/contact".toList, "https://ex.com/privacy".toList] := by
  constructor
  · unfold links_to_scrape crawlSetSpec
    have hne : maxI ≠ 0 := Nat.pos_iff_ne_zero.mp h
    rw [if_neg hne]
    by_cases hp : (patterns.map lowerTxt).isEmpty = true
    · rw [if_pos hp]
      have hnil : patterns.map lowerTxt = [] := List.isEmpty_iff.mp hp
      rw [hnil]
      have hfix : (contact ++ footer ++ header ++ body).filter
          (fun l => !(matchesExclusion l ([] : List Txt))) =
          contact ++ footer ++ header ++ body := by
        apply List.filter_eq_self.mpr
        intro x _
        rw [matchesExclusion_nil]
        rfl
      rw [hfix]
    · rw [if_neg hp]
  · decide

/-- Witness for C1_crawl_list at concrete inputs (one contact, one footer,
two body links, one wildcard exclusion pattern, limit 3). -/
theorem C1_crawl_list_witness :
    links_to_scrape ["https://ex.com/contact".toList]
        ["https://ex.com/privacy".toList] []
        ["https://ex.com/a".toList, "https://ex.com/b".toList]
        ["*priv*".toList] 3 =
      crawlSetSpec ["https://ex.com/contact".toList]
        ["https://ex.com/privacy".toList] []
        ["https://ex.com/a".toList, "https://ex.com/b".toList]
        ["*priv*".toList] 3 := by
  exact (C1_crawl_list ["https://ex.com/contact".toList]
    ["https://ex.com/privacy".toList] []
    ["https://ex.com/a".toList, "https://ex.com/b".toList]
    ["*priv*".toList] 3 (by decide)).1

/-! ## Social-profile extraction (scraper.py lines 300-457)

`extract_social_links` first gathers candidate `<a>` elements from the soup
(containers / icons / attributes); the acceptance decision is the
"Process candidates" loop (lines 434-457) together with `is_share_button`
(lines 339-358) and `clean_social_url` (lines 361-368).  Candidates are
modelled as the list of links handed to that loop. -/

inductive Platform
  | facebook
  | twitter
  | linkedin
  | instagram
  | youtube
  | pinterest
  | tiktok
deriving DecidableEq, Repr, Fintype

/-- `SOCIAL_PLATFORMS[p]['domains']`. -/
def platformDomains : Platform → List Txt
  | .facebook => ["facebook.com".toList, "fb.com".toList, "fb.me".toList,
      "www.facebook.com".toList]
  | .twitter => ["twitter.com".toList, "x.com".toList, "www.twitter.com".toList,
      "www.x.com".toList]
  | .linkedin => ["linkedin.com".toList, "www.linkedin.com".toList]
  | .instagram => ["instagram.com".toList, "www.instagram.com".toList,
      "instagr.am".toList]
  | .youtube => ["youtube.com".toList, "www.youtube.com".toList, "youtu.be".toList]
  | .pinterest => ["pinterest.com".toList, "www.pinterest.com".toList,
      "pin.it".toList]
  | .tiktok => ["tiktok.com".toList, "www.tiktok.com".toList]

/-- `SOCIAL_PLATFORMS[p]['exclude']` — the platform-specific share-path
tokens. -/
def platformExclude : Platform → List Txt
  | .facebook => ["sharer".toList, "share.php".toList, "dialog".toList,
      "plugins".toList, "login".toList, "/groups/".toList, "photo.php".toList,
      "events/".toList, "l.php".toList]
  | .twitter => ["share".toList, "intent".toList, "search".toList,
      "hashtag".toList, "/i/".toList, "status/".toList, "widgets".toList]
  | .linkedin => ["shareArticle".toList, "share?".toList, "cws/share".toList,
      "login".toList, "signup".toList]
  | .instagram => ["/p/".toList, "/explore/".toList, "/accounts/".toList,
      "/direct/".toList, "/reel/".toList, "share".toList]
  | .youtube => ["watch?".toList, "embed/".toList, "share".toList,
      "playlist?".toList, "results?".toList]
  | .pinterest => ["/pin/".toList, "create".toList, "share".toList,
      "button".toList]
  | .tiktok => ["share".toList, "embed".toList, "/video/".toList,
      "/tag/".toList]

/-- Python dict iteration order of `SOCIAL_PLATFORMS`. -/
def platformOrder : List Platform :=
  [.facebook, .twitter, .linkedin, .instagram, .youtube, .pinterest, .tiktok]

/-- A candidate `<a>` element: its href, its stripped text content, and its
space-joined class attribute. -/
structure SLink where
  href : Txt
  text : Txt
  classes : Txt

def shareTextWords : List Txt :=
  ["share".toList, "tweet this".toList, "post this".toList, "pin it".toList]

def shareClassWords : List Txt :=
  ["share".toList, "sharer".toList, "addthis".toList, "sharethis".toList]

/-- scraper.py `is_share_button(href, link_element, platform_config)`. -/
def is_share_button (href : Txt) (l : SLink) (excludeTokens : List Txt) : Bool :=
  excludeTokens.any (fun e => containsSub (lowerTxt href) (lowerTxt e)) ||
  shareTextWords.any (fun w => containsSub (lowerTxt l.text) w) ||
  shareClassWords.any (fun w => containsSub (lowerTxt l.classes) w)

/-- scraper.py `clean_social_url(href)`: strip the query string (everything
from the first `'?'`), then every trailing slash. -/
def clean_social_url (href : Txt) : Txt :=
  rstripSlash (href.takeWhile (fun c => c ≠ '?'))

/-- The skip test at the top of the candidate loop:
`if not href or href.startswith(('#', 'javascript:', 'mailto:', 'tel:'))`. -/
def skipHref (href : Txt) : Bool :=
  href.isEmpty || ("#".toList.isPrefixOf href) ||
    ("javascript:".toList.isPrefixOf href) ||
    ("mailto:".toList.isPrefixOf href) || ("tel:".toList.isPrefixOf href)

/-- `any(domain in href_lower for domain in config['domains'])`. -/
def domainHit (p : Platform) (href : Txt) : Bool :=
  (platformDomains p).any (fun d => containsSub (lowerTxt href) d)

/-- The platform loop body of `extract_social_links` for one candidate:
skip platforms already resolved, take the first platform whose domain matches,
reject share buttons and too-short cleaned URLs, and stop at the first
platform that accepts (`break`). -/
def tryPlatforms (l : SLink) : List Platform → List (Platform × Txt) →
    List (Platform × Txt)
  | [], found => found
  | p :: ps, found =>
      if (found.lookup p).isSome then tryPlatforms l ps found
      else if domainHit p l.href then
        if is_share_button l.href l (platformExclude p) then
          tryPlatforms l ps found
        else if !(clean_social_url l.href).isEmpty &&
            decide (20 < (clean_social_url l.href).length) then
          (p, clean_social_url l.href) :: found
        else tryPlatforms l ps found
      else tryPlatforms l ps found

/-- One iteration of the candidate loop. -/
def stepSocial (found : List (Platform × Txt)) (l : SLink) :
    List (Platform × Txt) :=
  if skipHref l.href then found else tryPlatforms l platformOrder found

/-- The "Process candidates" loop of `extract_social_links`. -/
def extract_social_links (cands : List SLink) : List (Platform × Txt) :=
  cands.foldl stepSocial []

def socialResult (cands : List SLink) (p : Platform) : Option Txt :=
  (extract_social_links cands).lookup p

/-- The acceptance conditions checked inside the platform loop (after the
skip test): domain match, not a share button, cleaned URL nonempty and longer
than 20 characters. -/
def acceptNoSkip (p : Platform) (l : SLink) : Bool :=
  domainHit p l.href && !(is_share_button l.href l (platformExclude p)) &&
    !(clean_social_url l.href).isEmpty &&
    decide (20 < (clean_social_url l.href).length)

/-- Full acceptance of a candidate for a platform. -/
def fullAccept (p : Platform) (l : SLink) : Bool :=
  !(skipHref l.href) && acceptNoSkip p l

theorem tryPlatforms_cons (l : SLink) (q : Platform) (ps : List Platform)
    (found : List (Platform × Txt)) :
    tryPlatforms l (q :: ps) found =
      if (found.lookup q).isSome then tryPlatforms l ps found
      else if acceptNoSkip q l then (q, clean_social_url l.href) :: found
      else tryPlatforms l ps found := by
  have hdef : tryPlatforms l (q :: ps) found =
      (if (found.lookup q).isSome then tryPlatforms l ps found
       else if domainHit q l.href then
         if is_share_button l.href l (platformExclude q) then
           tryPlatforms l ps found
         else if !(clean_social_url l.href).isEmpty &&
             decide (20 < (clean_social_url l.href).length) then
           (q, clean_social_url l.href) :: found
         else tryPlatforms l ps found
       else tryPlatforms l ps found) := rfl
  rw [hdef]
  cases hl : (found.lookup q).isSome
  · cases hd : domainHit q l.href
    · simp [acceptNoSkip, hl, hd]
    · cases hs : is_share_button l.href l (platformExclude q)
      · cases hc : (!(clean_social_url l.href).isEmpty &&
            decide (20 < (clean_social_url l.href).length))
        · simp [acceptNoSkip, hl, hd, hs, hc]
        · simp [acceptNoSkip, hl, hd, hs, hc]
      · simp [acceptNoSkip, hl, hd, hs]
  · simp [hl]

theorem tryPlatforms_lookup_sound (l : SLink) :
    ∀ (plist : List Platform) (found : List (Platform × Txt)) (p : Platform)
      (u : Txt),
      (tryPlatforms l plist found).lookup p = some u →
      found.lookup p = some u ∨
        (acceptNoSkip p l = true ∧ u = clean_social_url l.href) := by
  intro plist
  induction plist with
  | nil => intro found p u h; exact Or.inl h
  | cons q ps ih =>
      intro found p u h
      rw [tryPlatforms_cons] at h
      by_cases h1 : (found.lookup q).isSome = true
      · rw [if_pos h1] at h; exact ih found p u h
      · rw [if_neg h1] at h
        by_cases h2 : acceptNoSkip q l = true
        · rw [if_pos h2] at h
          by_cases hpq : p = q
          · subst hpq
            have : u = clean_social_url l.href := by
              simp [List.lookup] at h
              exact h.symm
            exact Or.inr ⟨h2, this⟩
          · have hb : (p == q) = false := by simp [beq_iff_eq]; exact hpq
            have : found.lookup p = some u := by
              simpa [List.lookup, hb] using h
            exact Or.inl this
        · rw [if_neg h2] at h; exact ih found p u h

theorem foldl_social_sound :
    ∀ (cands : List SLink) (found : List (Platform × Txt)) (p : Platform)
      (u : Txt),
      (cands.foldl stepSocial found).lookup p = some u →
      found.lookup p = some u ∨
        ∃ l, l ∈ cands ∧ skipHref l.href = false ∧ acceptNoSkip p l = true ∧
          u = clean_social_url l.href := by
  intro cands
  induction cands with
  | nil => intro found p u h; exact Or.inl h
  | cons l ls ih =>
      intro found p u h
      have h' := ih (stepSocial found l) p u h
      rcases h' with hf | ⟨l0, hl0, hskip, hacc, hu⟩
      · unfold stepSocial at hf
        by_cases hs : skipHref l.href = true
        · rw [if_pos hs] at hf; exact Or.inl hf
        · rw [if_neg hs] at hf
          have hs' : skipHref l.href = false := by
            revert hs; cases skipHref l.href <;> simp
          rcases tryPlatforms_lookup_sound l platformOrder found p u hf with
            hf2 | ⟨ha, hu⟩
          · exact Or.inl hf2
          · exact Or.inr ⟨l, List.mem_cons_self _ _, hs', ha, hu⟩
      · exact Or.inr ⟨l0, List.mem_cons_of_mem _ hl0, hskip, hacc, hu⟩

theorem tryPlatforms_lookup_isSome (l : SLink) :
    ∀ (plist : List Platform) (found : List (Platform × Txt)) (p : Platform),
      (found.lookup p).isSome = true →
      (tryPlatforms l plist found).lookup p = found.lookup p := by
  intro plist
  induction plist with
  | nil => intro found p _; rfl
  | cons q ps ih =>
      intro found p hp
      rw [tryPlatforms_cons]
      by_cases h1 : (found.lookup q).isSome = true
      · rw [if_pos h1]; exact ih found p hp
      · rw [if_neg h1]
        by_cases h2 : acceptNoSkip q l = true
        · rw [if_pos h2]
          have hpq : p ≠ q := by
            intro hh; subst hh; exact h1 hp
          have hb : (p == q) = false := by simp [beq_iff_eq]; exact hpq
          simp [List.lookup, hb]
        · rw [if_neg h2]; exact ih found p hp

theorem tryPlatforms_lookup_accept (l : SLink) (p : Platform)
    (hacc : acceptNoSkip p l = true)
    (honly : ∀ q, domainHit q l.href = true → q = p) :
    ∀ (plist : List Platform) (found : List (Platform × Txt)),
      p ∈ plist → found.lookup p = none →
      (tryPlatforms l plist found).lookup p =
        some (clean_social_url l.href) := by
  intro plist
  induction plist with
  | nil => intro found hmem _; exact absurd hmem (List.not_mem_nil _)
  | cons q ps ih =>
      intro found hmem hnone
      rw [tryPlatforms_cons]
      by_cases hpq : q = p
      · subst hpq
        have h1 : ¬ (found.lookup q).isSome = true := by
          rw [hnone]; simp
        rw [if_neg h1, if_pos hacc]
        simp [List.lookup]
      · have hq : domainHit q l.href = false := by
          cases hd : domainHit q l.href
          · rfl
          · exact absurd (honly q hd) hpq
        have hqacc : acceptNoSkip q l = false := by
          simp [acceptNoSkip, hq]
        have hmem' : p ∈ ps := by
          rcases List.mem_cons.mp hmem with hh | hh
          · exact absurd hh.symm hpq
          · exact hh
        by_cases h1 : (found.lookup q).isSome = true
        · rw [if_pos h1]; exact ih found hmem' hnone
        · rw [if_neg h1, if_neg (by rw [hqacc]; simp)]
          exact ih found hmem' hnone

theorem tryPlatforms_lookup_reject (l : SLink) (p : Platform)
    (hrej : acceptNoSkip p l = false) :
    ∀ (plist : List Platform) (found : List (Platform × Txt)),
      (tryPlatforms l plist found).lookup p = found.lookup p := by
  intro plist
  induction plist with
  | nil => intro found; rfl
  | cons q ps ih =>
      intro found
      rw [tryPlatforms_cons]
      by_cases h1 : (found.lookup q).isSome = true
      · rw [if_pos h1]; exact ih found
      · rw [if_neg h1]
        by_cases h2 : acceptNoSkip q l = true
        · rw [if_pos h2]
          have hpq : p ≠ q := by
            intro hh; subst hh; rw [hrej] at h2; exact Bool.false_ne_true h2
          have hb : (p == q) = false := by simp [beq_iff_eq]; exact hpq
          simp [List.lookup, hb]
        · rw [if_neg h2]; exact ih found

theorem foldl_social_isSome :
    ∀ (cands : List SLink) (found : List (Platform × Txt)) (p : Platform),
      (found.lookup p).isSome = true →
      (cands.foldl stepSocial found).lookup p = found.lookup p := by
  intro cands
  induction cands with
  | nil => intro found p _; rfl
  | cons l ls ih =>
      intro found p hp
      have hstep : (stepSocial found l).lookup p = found.lookup p := by
        unfold stepSocial
        by_cases hs : skipHref l.href = true
        · rw [if_pos hs]
        · rw [if_neg hs]; exact tryPlatforms_lookup_isSome l platformOrder found p hp
      have : (ls.foldl stepSocial (stepSocial found l)).lookup p =
          (stepSocial found l).lookup p := by
        apply ih
        rw [hstep]; exact hp
      calc ((l :: ls).foldl stepSocial found).lookup p
          = (ls.foldl stepSocial (stepSocial found l)).lookup p := rfl
        _ = (stepSocial found l).lookup p := this
        _ = found.lookup p := hstep

theorem mem_platformOrder (p : Platform) : p ∈ platformOrder := by
  cases p <;> decide

theorem foldl_social_firstwins (p : Platform) :
    ∀ (cands : List SLink) (found : List (Platform × Txt)),
      (∀ l, l ∈ cands → ∀ q r, domainHit q l.href = true →
        domainHit r l.href = true → q = r) →
      found.lookup p = none →
      (cands.foldl stepSocial found).lookup p =
        (cands.find? (fun l => fullAccept p l)).map
          (fun l => clean_social_url l.href) := by
  intro cands
  induction cands with
  | nil => intro found _ hnone; simpa [List.find?] using hnone
  | cons l ls ih =>
      intro found hone hnone
      have honerest : ∀ l0, l0 ∈ ls → ∀ q r, domainHit q l0.href = true →
          domainHit r l0.href = true → q = r := by
        intro l0 hl0; exact hone l0 (List.mem_cons_of_mem _ hl0)
      have hfold : (l :: ls).foldl stepSocial found =
          ls.foldl stepSocial (stepSocial found l) := rfl
      rw [hfold]
      by_cases hs : skipHref l.href = true
      · have hstep : stepSocial found l = found := by
          unfold stepSocial; rw [if_pos hs]
        have hfa : fullAccept p l = false := by
          simp [fullAccept, hs]
        rw [hstep, List.find?_cons, hfa]
        exact ih found honerest hnone
      · have hs' : skipHref l.href = false := by
          revert hs; cases skipHref l.href <;> simp
        have hstep : stepSocial found l = tryPlatforms l platformOrder found := by
          unfold stepSocial; rw [if_neg hs]
        by_cases hacc : acceptNoSkip p l = true
        · have honly : ∀ q, domainHit q l.href = true → q = p := by
            intro q hq
            have hp : domainHit p l.href = true := by
              have := hacc
              simp [acceptNoSkip] at this
              exact this.1.1.1
            exact hone l (List.mem_cons_self _ _) q p hq hp
          have hlook : (stepSocial found l).lookup p =
              some (clean_social_url l.href) := by
            rw [hstep]
            exact tryPlatforms_lookup_accept l p hacc honly platformOrder found
              (mem_platformOrder p) hnone
          have hfa : fullAccept p l = true := by
            simp [fullAccept, hs', hacc]
          rw [List.find?_cons, hfa]
          have := foldl_social_isSome ls (stepSocial found l) p
            (by rw [hlook]; rfl)
          rw [this, hlook]
          rfl
        · have hacc' : acceptNoSkip p l = false := by
            revert hacc; cases acceptNoSkip p l <;> simp
          have hlook : (stepSocial found l).lookup p = none := by
            rw [hstep, tryPlatforms_lookup_reject l p hacc' platformOrder found]
            exact hnone
          have hfa : fullAccept p l = false := by
            simp [fullAccept, hacc']
          rw [List.find?_cons, hfa]
          exact ih (stepSocial found l) honerest hlook

/-- The sharer-button candidate of the claim:
`https://facebook.com/sharer.php?u=...`. -/
def sharerLink : SLink :=
  { href := "https://facebook.com/sharer.php?u=https://acme.com".toList,
    text := "Share".toList, classes := "share-button".toList }

/-- The business-profile candidate of the claim. -/
def acmeLink : SLink :=
  { href := "https://facebook.com/acmecorp".toList,
    text := "Facebook".toList, classes := "social-icon".toList }

/-- C4: (i) soundness — any URL produced by the candidate-processing loop of
`extract_social_links` comes from a candidate whose href survives the
fragment/javascript/mailto/tel skip, matches the platform's domains, is not a
share button, and whose query-stripped cleaned URL is at least 20 characters
long (the code in fact requires strictly more than 20); (ii) when every
candidate matches at most one platform's domains, the first accepted candidate
per platform wins (the result is the cleaned href of the first fully
acceptable candidate); (iii) concretely, with the sharer candidate listed
first, `https://facebook.com/sharer.php?u=...` is rejected and
`https://facebook.com/acmecorp` is returned for facebook; a page with only the
sharer candidate yields no facebook URL; each platform maps to at most one
URL by construction (`Option`-valued lookup). -/
theorem C4_social_extraction :
    (∀ (cands : List SLink) (p : Platform) (u : Txt),
      socialResult cands p = some u →
      ∃ l, l ∈ cands ∧ skipHref l.href = false ∧ domainHit p l.href = true ∧
        is_share_button l.href l (platformExclude p) = false ∧
        u = clean_social_url l.href ∧ 20 ≤ u.length ∧ 20 < u.length) ∧
    (∀ (cands : List SLink) (p : Platform),
      (∀ l, l ∈ cands → ∀ q r, domainHit q l.href = true →
        domainHit r l.href = true → q = r) →
      socialResult cands p =
        (cands.find? (fun l => fullAccept p l)).map
          (fun l => clean_social_url l.href)) ∧
    socialResult [sharerLink, acmeLink] Platform.facebook =
      some ("https://facebook.com/acmecorp".toList) ∧
    socialResult [sharerLink] Platform.facebook = none := by
  refine ⟨?_, ?_, ?_, ?_⟩
  · intro cands p u h
    have := foldl_social_sound cands [] p u h
    rcases this with hf | ⟨l, hl, hskip, hacc, hu⟩
    · simp [List.lookup] at hf
    · have hacc' := hacc
      simp only [acceptNoSkip, Bool.and_eq_true, Bool.not_eq_true',
        decide_eq_true_eq] at hacc'
      obtain ⟨⟨⟨hdom, hshare⟩, _⟩, hlen⟩ := hacc'
      refine ⟨l, hl, hskip, hdom, hshare, hu, ?_, ?_⟩
      · rw [hu]; omega
      · rw [hu]; omega
  · intro cands p hone
    exact foldl_social_firstwins p cands [] hone rfl
  · decide
  · decide

/-- Witness for C4_social_extraction: the first-wins clause applied at the
two concrete candidates for the twitter platform (no twitter candidate, so no
URL), with the at-most-one-platform hypothesis discharged by computation. -/
theorem C4_social_extraction_witness :
    socialResult [sharerLink, acmeLink] Platform.twitter = none := by
  have h := C4_social_extraction.2.1 [sharerLink, acmeLink] Platform.twitter
    (by decide)
  rw [h]
  decide

/-! ## Fetch with fallback (scraper.py `scrape_with_fallback`, lines 827-890)

```
for attempt in range(retries):
    proxy = get_proxy()
    result = scrape_url_requests(url, ...)
    if result['status'] == 'success':
        result['scrape_method'] = 'requests'
        requests_result = result
        if is_homepage and use_playwright:
            page_data = process_scraped_page(url, result, user_id)
            if page_data and not page_data['emails']:
                needs_playwright = True
            else:
                return result
        else:
            return result
        break
    if result.get('is_cloudflare') or result.get('http_status') in [403, 503]:
        needs_playwright = True
        break
    if proxy: record_proxy_failure(proxy)
    if attempt < retries - 1: time.sleep(1 + attempt)

if use_playwright and (needs_playwright or requests_result is None):
    result = scrape_url_playwright(url, ...)
    if result['status'] == 'success':
        result['scrape_method'] = 'playwright'
        return result
    elif requests_result:
        return requests_result
if requests_result:
    return requests_result
return {'status': 'error', 'error': 'All methods failed', 'http_status': -1}
```
The network is abstracted by the list of per-attempt direct-fetch outcomes
(`attempts`, one entry per loop iteration) and one browser outcome
(`browserRes`); email extraction (`process_scraped_page(...)['emails']`) is a
deterministic function of the fetched html, abstracted by the parameter
`ext`.  Both strategies catch their own exceptions and always return a status
record (`scrape_url_requests` lines 637-678, `scrape_url_playwright` lines
681-706), so each outcome is a `FetchRes` with status success or error. -/

inductive FetchStatus
  | success
  | error
deriving DecidableEq, Repr

structure FetchRes where
  status : FetchStatus
  httpStatus : Int
  isCloudflare : Bool
  html : Txt
deriving DecidableEq, Repr

inductive ScrapeMethod
  | requests
  | playwright
deriving DecidableEq, Repr

structure FallbackOut where
  status : FetchStatus
  httpStatus : Int
  html : Txt
  method : Option ScrapeMethod
deriving DecidableEq, Repr

def fromRes (m : ScrapeMethod) (r : FetchRes) : FallbackOut :=
  { status := r.status, httpStatus := r.httpStatus, html := r.html,
    method := some m }

/-- `{'status': 'error', 'error': 'All methods failed', 'http_status': -1}`. -/
def allFailedOut : FallbackOut :=
  { status := FetchStatus.error, httpStatus := -1, html := [], method := none }

/-- Result of the requests loop: an early `return result`, or falling through
with the saved `requests_result` and the `needs_playwright` flag. -/
inductive ReqPhase
  | early (r : FetchRes)
  | fell (reqRes : Option FetchRes) (needsPw : Bool)
deriving DecidableEq, Repr

/-- The `for attempt in range(retries)` loop of `scrape_with_fallback`;
`hpCheck = is_homepage and use_playwright`, `ee r` decides whether extraction
on the successful direct result finds zero emails. -/
def requestsPhase (ee : FetchRes → Bool) (hpCheck : Bool) :
    List FetchRes → ReqPhase
  | [] => ReqPhase.fell none false
  | r :: rest =>
      if r.status = FetchStatus.success then
        if hpCheck then
          if ee r then ReqPhase.fell (some r) true else ReqPhase.early r
        else ReqPhase.early r
      else if r.isCloudflare || r.httpStatus = 403 || r.httpStatus = 503 then
        ReqPhase.fell none true
      else requestsPhase ee hpCheck rest

/-- scraper.py `scrape_with_fallback`, with the fetch outcomes supplied as
oracles: `attempts` is the sequence of direct-strategy outcomes (one per loop
iteration), `browserRes` the browser-strategy outcome if it is invoked. -/
def scrape_with_fallback (ext : Txt → List Txt) (usePlaywright isHomepage : Bool)
    (attempts : List FetchRes) (browserRes : FetchRes) : FallbackOut :=
  match requestsPhase (fun r => (ext r.html).isEmpty) (isHomepage && usePlaywright)
      attempts with
  | ReqPhase.early r => fromRes ScrapeMethod.requests r
  | ReqPhase.fell reqRes needsPw =>
      if usePlaywright && (needsPw || reqRes.isNone) then
        if browserRes.status = FetchStatus.success then
          fromRes ScrapeMethod.playwright browserRes
        else
          match reqRes with
          | some r => fromRes ScrapeMethod.requests r
          | none => allFailedOut
      else
        match reqRes with
        | some r => fromRes ScrapeMethod.requests r
        | none => allFailedOut

/-- A failed attempt that does not trigger the Cloudflare/bot-challenge
escalation. -/
def plainFailure (r : FetchRes) : Prop :=
  r.status ≠ FetchStatus.success ∧ r.isCloudflare = false ∧
    r.httpStatus ≠ 403 ∧ r.httpStatus ≠ 503

theorem requestsPhase_skip_failures (ee : FetchRes → Bool) (hpCheck : Bool) :
    ∀ (pre rest : List FetchRes),
      (∀ x ∈ pre, plainFailure x) →
      requestsPhase ee hpCheck (pre ++ rest) = requestsPhase ee hpCheck rest := by
  intro pre
  induction pre with
  | nil => intro rest _; rfl
  | cons x xs ih =>
      intro rest hpre
      obtain ⟨hx, hcf, h403, h503⟩ := hpre x (List.mem_cons_self _ _)
      have hrest : ∀ y ∈ xs, plainFailure y := fun y hy =>
        hpre y (List.mem_cons_of_mem _ hy)
      have hdef : requestsPhase ee hpCheck ((x :: xs) ++ rest) =
          requestsPhase ee hpCheck (xs ++ rest) := by
        show requestsPhase ee hpCheck (x :: (xs ++ rest)) =
          requestsPhase ee hpCheck (xs ++ rest)
        rw [requestsPhase]
        rw [if_neg hx, if_neg (by simp [hcf, h403, h503])]
      rw [hdef, ih rest hrest]

/-- C2: with the browser strategy available and enabled
(`usePlaywright = true`), (i) for a homepage fetch where the direct strategy
succeeds (after any number of plain failures) but extraction finds zero
emails, the fetch falls through to exactly one browser attempt, returning the
browser result when it succeeds and the original direct result otherwise;
(ii) for a non-homepage fetch a successful direct result is returned
immediately, for every possible browser outcome (no browser re-fetch). -/
theorem C2_homepage_browser_retry (ext : Txt → List Txt) (pre rest : List FetchRes)
    (r browserRes : FetchRes)
    (hpre : ∀ x ∈ pre, plainFailure x)
    (hr : r.status = FetchStatus.success) :
    (ext r.html = [] →
      (browserRes.status = FetchStatus.success →
        scrape_with_fallback ext true true (pre ++ r :: rest) browserRes =
          fromRes ScrapeMethod.playwright browserRes) ∧
      (browserRes.status ≠ FetchStatus.success →
        scrape_with_fallback ext true true (pre ++ r :: rest) browserRes =
          fromRes ScrapeMethod.requests r)) ∧
    scrape_with_fallback ext true false (pre ++ r :: rest) browserRes =
      fromRes ScrapeMethod.requests r := by
  constructor
  · intro hee
    have hphase : requestsPhase (fun x => (ext x.html).isEmpty) true
        (pre ++ r :: rest) = ReqPhase.fell (some r) true := by
      rw [requestsPhase_skip_failures _ _ pre (r :: rest) hpre]
      unfold requestsPhase
      rw [if_pos hr, if_pos rfl, if_pos (by simp [hee])]
    constructor
    · intro hb
      unfold scrape_with_fallback
      simp only [Bool.and_self]
      rw [hphase]
      simp [hb]
    · intro hb
      have hb' : ¬ browserRes.status = FetchStatus.success := hb
      unfold scrape_with_fallback
      simp only [Bool.and_self]
      rw [hphase]
      simp [hb']
  · have hphase : requestsPhase (fun x => (ext x.html).isEmpty) false
        (pre ++ r :: rest) = ReqPhase.early r := by
      rw [requestsPhase_skip_failures _ _ pre (r :: rest) hpre]
      unfold requestsPhase
      rw [if_pos hr]
      simp
    unfold scrape_with_fallback
    simp only [Bool.false_and, Bool.and_false]
    rw [hphase]

/-- Witness for C2_homepage_browser_retry at concrete oracles: one plain
failure, then a direct success whose html yields no emails; a successful
browser result is returned with the playwright tag. -/
theorem C2_homepage_browser_retry_witness :
    scrape_with_fallback (fun _ => [])
      true true
      [{ status := FetchStatus.error, httpStatus := 500, isCloudflare := false,
         html := [] },
       { status := FetchStatus.success, httpStatus := 200, isCloudflare := false,
         html := "<html></html>".toList }]
      { status := FetchStatus.success, httpStatus := 200, isCloudflare := false,
        html := "<html>a@b.co</html>".toList } =
      fromRes ScrapeMethod.playwright
        { status := FetchStatus.success, httpStatus := 200, isCloudflare := false,
          html := "<html>a@b.co</html>".toList } := by
  have h := (C2_homepage_browser_retry (fun _ => [])
    [{ status := FetchStatus.error, httpStatus := 500, isCloudflare := false,
       html := [] }] []
    { status := FetchStatus.success, httpStatus := 200, isCloudflare := false,
      html := "<html></html>".toList }
    { status := FetchStatus.success, httpStatus := 200, isCloudflare := false,
      html := "<html>a@b.co</html>".toList }
    (by intro x hx
        simp at hx
        subst hx
        exact ⟨by decide, by decide, by decide, by decide⟩)
    (by decide)).1 rfl
  exact h.1 rfl

theorem requestsPhase_all_fail (ee : FetchRes → Bool) (hpCheck : Bool) :
    ∀ attempts : List FetchRes,
      (∀ x ∈ attempts, x.status ≠ FetchStatus.success) →
      ∃ b, requestsPhase ee hpCheck attempts = ReqPhase.fell none b := by
  intro attempts
  induction attempts with
  | nil => intro _; exact ⟨false, rfl⟩
  | cons x xs ih =>
      intro hall
      have hx := hall x (List.mem_cons_self _ _)
      by_cases hcf : (x.isCloudflare || x.httpStatus = 403 || x.httpStatus = 503) = true
      · refine ⟨true, ?_⟩
        unfold requestsPhase
        rw [if_neg hx, if_pos hcf]
      · obtain ⟨b, hb⟩ := ih (fun y hy => hall y (List.mem_cons_of_mem _ hy))
        refine ⟨b, ?_⟩
        unfold requestsPhase
        rw [if_neg hx, if_neg hcf]
        exact hb

/-- C10: the fetch-with-fallback operation is total at its interface: for all
oracles it returns a record whose status is success or error (never an
exception — each strategy catches its own errors, modelled by every outcome
being a status record); and when every direct attempt fails and the browser
strategy fails or is unavailable, it returns the error record with
`http_status = -1`. -/
theorem C10_fallback_totality (ext : Txt → List Txt)
    (usePlaywright isHomepage : Bool) (attempts : List FetchRes)
    (browserRes : FetchRes) :
    ((scrape_with_fallback ext usePlaywright isHomepage attempts
        browserRes).status = FetchStatus.success ∨
     (scrape_with_fallback ext usePlaywright isHomepage attempts
        browserRes).status = FetchStatus.error) ∧
    ((∀ x ∈ attempts, x.status ≠ FetchStatus.success) →
      (usePlaywright = false ∨ browserRes.status ≠ FetchStatus.success) →
      scrape_with_fallback ext usePlaywright isHomepage attempts browserRes =
        allFailedOut) := by
  constructor
  · cases h : (scrape_with_fallback ext usePlaywright isHomepage attempts
        browserRes).status
    · exact Or.inl rfl
    · exact Or.inr rfl
  · intro hall hbrowser
    obtain ⟨b, hb⟩ := requestsPhase_all_fail
      (fun x => (ext x.html).isEmpty) (isHomepage && usePlaywright) attempts hall
    unfold scrape_with_fallback
    rw [hb]
    rcases hbrowser with hup | hbf
    · subst hup
      simp
    · have hbf' : ¬ browserRes.status = FetchStatus.success := hbf
      cases usePlaywright
      · simp
      · simp [hbf']

/-- Witness for C10_fallback_totality: all direct attempts fail and the
browser fails too, so the result is the http_status −1 error record. -/
theorem C10_fallback_totality_witness :
    scrape_with_fallback (fun _ => []) true false
      [{ status := FetchStatus.error, httpStatus := 500, isCloudflare := false,
         html := [] }]
      { status := FetchStatus.error, httpStatus := -1, isCloudflare := false,
        html := [] } = allFailedOut := by
  exact (C10_fallback_totality (fun _ => []) true false
    [{ status := FetchStatus.error, httpStatus := 500, isCloudflare := false,
       html := [] }]
    { status := FetchStatus.error, httpStatus := -1, isCloudflare := false,
      html := [] }).2
    (by intro x hx
        simp at hx
        subst hx
        decide)
    (Or.inr (by decide))

/-! ## Domain rate limiter (scraper.py `DomainRateLimiter`, lines 597-612)

```
def wait_for_domain(self, url):
    domain = urlparse(url).netloc
    with self.lock:
        elapsed = time.time() - self.last_request[domain]
        if elapsed < self.min_delay:
            time.sleep(self.min_delay - elapsed)
        self.last_request[domain] = time.time()
```
The whole body — including the sleep — runs under `self.lock`, so concurrent
workers are serialized and a run is modelled as a list of calls.  Time is
modelled by ℚ: `now` is the `time.time()` reading on entry and `eps ≥ 0` the
extra wall-clock drift of the final `time.time()` reading (`time.sleep(d)`
suspends for at least `d`). `last_request` is a `defaultdict(float)`, so an
unseen domain reads as 0. -/

def lastOf (st : List (String × ℚ)) (d : String) : ℚ :=
  (st.lookup d).getD 0

structure LimiterCall where
  dom : String
  now : ℚ
  eps : ℚ

/-- The timestamp recorded by `wait_for_domain`: after sleeping out the
remaining interval when `elapsed < min_delay`, `time.time()` is stored. -/
def stampOf (minDelay : ℚ) (st : List (String × ℚ)) (c : LimiterCall) : ℚ :=
  if c.now - lastOf st c.dom < minDelay then
    c.now + (minDelay - (c.now - lastOf st c.dom)) + c.eps
  else c.now + c.eps

/-- `wait_for_domain`: returns the recorded admission timestamp and the
updated clock map. -/
def wait_for_domain (minDelay : ℚ) (st : List (String × ℚ)) (c : LimiterCall) :
    ℚ × List (String × ℚ) :=
  (stampOf minDelay st c, updateAssoc st c.dom (stampOf minDelay st c))

/-- A serialized run of limiter calls: the admission log (domain, timestamp)
in order, and the final clock map. -/
def runLimiter (minDelay : ℚ) : List LimiterCall → List (String × ℚ) →
    List (String × ℚ) × List (String × ℚ)
  | [], st => ([], st)
  | c :: cs, st =>
      let r := wait_for_domain minDelay st c
      let rest := runLimiter minDelay cs r.2
      ((c.dom, r.1) :: rest.1, rest.2)

/-- The admission timestamps of one domain, in order. -/
def stampsFor (d : String) (log : List (String × ℚ)) : List ℚ :=
  (log.filter (fun e => decide (e.1 = d))).map Prod.snd

theorem stampOf_ge (minDelay : ℚ) (st : List (String × ℚ)) (c : LimiterCall)
    (heps : 0 ≤ c.eps) :
    lastOf st c.dom + minDelay ≤ stampOf minDelay st c := by
  unfold stampOf
  by_cases h : c.now - lastOf st c.dom < minDelay
  · rw [if_pos h]; linarith
  · rw [if_neg h]; push_neg at h; linarith

theorem C6_rate_limiter (minDelay : ℚ) (hmd : 0 ≤ minDelay) :
    (∀ (calls : List LimiterCall) (st0 : List (String × ℚ)) (d : String),
      (∀ c ∈ calls, 0 ≤ c.eps) →
      List.Chain (fun a b => a + minDelay ≤ b) (lastOf st0 d)
        (stampsFor d (runLimiter minDelay calls st0).1)) ∧
    (∀ (st : List (String × ℚ)) (c : LimiterCall),
      (wait_for_domain minDelay st c).2.lookup c.dom =
        some (stampOf minDelay st c)) ∧
    (∀ (st : List (String × ℚ)) (c : LimiterCall) (d : String), 0 ≤ c.eps →
      lastOf st d ≤ lastOf (wait_for_domain minDelay st c).2 d) := by
  refine ⟨?_, ?_, ?_⟩
  · intro calls
    induction calls with
    | nil => intro st0 d _; exact List.Chain.nil
    | cons c cs ih =>
        intro st0 d heps
        have hc : 0 ≤ c.eps := heps c (List.mem_cons_self _ _)
        have hcs : ∀ x ∈ cs, 0 ≤ x.eps := fun x hx =>
          heps x (List.mem_cons_of_mem _ hx)
        have hrun : (runLimiter minDelay (c :: cs) st0).1 =
            (c.dom, stampOf minDelay st0 c) ::
              (runLimiter minDelay cs
                (updateAssoc st0 c.dom (stampOf minDelay st0 c))).1 := rfl
        rw [hrun]
        by_cases hd : c.dom = d
        · subst hd
          have hfil : stampsFor c.dom ((c.dom, stampOf minDelay st0 c) ::
              (runLimiter minDelay cs
                (updateAssoc st0 c.dom (stampOf minDelay st0 c))).1) =
              stampOf minDelay st0 c ::
                stampsFor c.dom (runLimiter minDelay cs
                  (updateAssoc st0 c.dom (stampOf minDelay st0 c))).1 := by
            simp [stampsFor]
          rw [hfil]
          apply List.Chain.cons
          · exact stampOf_ge minDelay st0 c hc
          · have hlast : lastOf (updateAssoc st0 c.dom
                (stampOf minDelay st0 c)) c.dom = stampOf minDelay st0 c := by
              unfold lastOf
              rw [lookup_updateAssoc_self]
              rfl
            have := ih (updateAssoc st0 c.dom (stampOf minDelay st0 c)) c.dom hcs
            rw [hlast] at this
            exact this
        · have hfil : stampsFor d ((c.dom, stampOf minDelay st0 c) ::
              (runLimiter minDelay cs
                (updateAssoc st0 c.dom (stampOf minDelay st0 c))).1) =
              stampsFor d (runLimiter minDelay cs
                (updateAssoc st0 c.dom (stampOf minDelay st0 c))).1 := by
            simp [stampsFor, hd]
          rw [hfil]
          have hlast : lastOf (updateAssoc st0 c.dom
              (stampOf minDelay st0 c)) d = lastOf st0 d := by
            unfold lastOf
            rw [lookup_updateAssoc_ne _ _ _ _ (fun hh => hd hh.symm)]
          have := ih (updateAssoc st0 c.dom (stampOf minDelay st0 c)) d hcs
          rw [hlast] at this
          exact this
  · intro st c
    unfold wait_for_domain
    exact lookup_updateAssoc_self _ _ _
  · intro st c d heps
    unfold wait_for_domain lastOf
    by_cases hd : d = c.dom
    · subst hd
      rw [lookup_updateAssoc_self]
      have := stampOf_ge minDelay st c heps
      unfold lastOf at this
      simp only [Option.getD_some]
      linarith
    · rw [lookup_updateAssoc_ne _ _ _ _ hd]

/-- Witness for C6_rate_limiter: two back-to-back calls for the same domain
with min_delay 1 — the recorded stamps are 100 and 101, at least 1 apart. -/
theorem C6_rate_limiter_witness :
    List.Chain (fun a b => a + (1 : ℚ) ≤ b)
      (lastOf [] "x.com")
      (stampsFor "x.com"
        (runLimiter 1
          [{ dom := "x.com", now := 100, eps := 0 },
           { dom := "x.com", now := 201/2, eps := 0 }] []).1) := by
  apply (C6_rate_limiter 1 (by norm_num)).1
  intro c hc
  rcases List.mem_cons.mp hc with h | hc2
  · subst h; norm_num
  · rcases List.mem_cons.mp hc2 with h | h3
    · subst h; norm_num
    · exact absurd h3 (List.not_mem_nil _)

/-! ## De-obfuscation and email regex (scraper.py lines 98-120, 154-168, 185-205)

`deobfuscate_text` applies, in order: a `\uXXXX`-escape decoding pass, a
`u003[cCeE]` pass, and the fourteen `OBFUSCATION_PATTERNS` substitutions
(each an `re.sub` with `re.IGNORECASE`).  `re.sub` semantics: scan left to
right, replace each leftmost non-overlapping match and continue scanning
after it; a lookbehind inspects the original string.  Each pattern here is
deterministic (its greedy `\s*`/`\s+` pieces are followed by non-whitespace
literals, so maximal munch never needs backtracking).  Matchers return
`some (n, repl)`: consume `n + 1` characters, emit `repl`. -/

def lbrace : Char := Char.ofNat 123
def rbrace : Char := Char.ofNat 125

/-- Python `\s` on ASCII text: space, tab, newline, return, vertical tab,
form feed. -/
def isSpaceC (c : Char) : Bool :=
  c = ' ' || c = '\t' || c = '\n' || c = '\r' || c = '\x0b' || c = '\x0c'

/-- Python `\w` on ASCII text. -/
def isWordC (c : Char) : Bool := c.isAlphanum || c = '_'

/-- Case-insensitive match of one fixed pattern character `p` (the patterns
in scraper.py are lower-case ASCII literals): `re.IGNORECASE` lets `p` also
match its upper-case counterpart when `p` is a lower-case letter. -/
def ciChar (p c : Char) : Bool :=
  c = p || (p.isLower && c = Char.ofNat (p.toNat - 32))

/-- Case-insensitive prefix match of a fixed lower-case pattern. -/
def ciStarts : Txt → Txt → Bool
  | [], _ => true
  | _ :: _, [] => false
  | p :: ps, c :: cs => ciChar p c && ciStarts ps cs

/-- A substitution matcher: given the previous original character (for
lookbehind) and the current suffix, either fail or consume `n + 1` characters
and produce a replacement. -/
abbrev Matcher := Option Char → Txt → Option (Nat × Txt)

/-- Fueled left-to-right scan-and-substitute (`re.sub`).  The fuel only needs
to cover the string length, as each step consumes at least one character. -/
def scanSubF (m : Matcher) : Nat → Option Char → Txt → Txt
  | 0, _, s => s
  | _ + 1, _, [] => []
  | fuel + 1, prev, c :: cs =>
      match m prev (c :: cs) with
      | some (n, repl) =>
          repl ++ scanSubF m fuel (some ((c :: cs).getD n c)) (cs.drop n)
      | none => c :: scanSubF m fuel (some c) cs

def scanSub (m : Matcher) (prev : Option Char) (s : Txt) : Txt :=
  scanSubF m s.length prev s

theorem scanSubF_nil (m : Matcher) (f : Nat) (prev : Option Char) :
    scanSubF m f prev [] = [] := by
  cases f <;> rfl

theorem scanSubF_fuel (m : Matcher) :
    ∀ (f1 : Nat) (s : Txt) (f2 : Nat) (prev : Option Char),
      s.length ≤ f1 → s.length ≤ f2 →
      scanSubF m f1 prev s = scanSubF m f2 prev s := by
  intro f1
  induction f1 with
  | zero =>
      intro s f2 prev h1 _
      have : s = [] := List.eq_nil_of_length_eq_zero (Nat.le_zero.mp h1)
      subst this
      rw [scanSubF_nil, scanSubF_nil]
  | succ f ih =>
      intro s f2 prev h1 h2
      cases s with
      | nil => rw [scanSubF_nil, scanSubF_nil]
      | cons c cs =>
          cases f2 with
          | zero => simp at h2
          | succ g =>
              show scanSubF m (f + 1) prev (c :: cs) =
                scanSubF m (g + 1) prev (c :: cs)
              cases hm : m prev (c :: cs) with
              | none =>
                  have hlen : cs.length ≤ f := by
                    simp at h1; omega
                  have hlen2 : cs.length ≤ g := by
                    simp at h2; omega
                  simp only [scanSubF, hm]
                  rw [ih cs g (some c) hlen hlen2]
              | some r =>
                  obtain ⟨n, repl⟩ := r
                  have hd : (cs.drop n).length ≤ f := by
                    have := List.length_drop n cs
                    simp at h1
                    omega
                  have hd2 : (cs.drop n).length ≤ g := by
                    have := List.length_drop n cs
                    simp at h2
                    omega
                  simp only [scanSubF, hm]
                  rw [ih (cs.drop n) g (some ((c :: cs).getD n c)) hd hd2]

theorem scanSub_nil (m : Matcher) (prev : Option Char) :
    scanSub m prev [] = [] := rfl

theorem scanSub_cons_none (m : Matcher) (prev : Option Char) (c : Char)
    (cs : Txt) (h : m prev (c :: cs) = none) :
    scanSub m prev (c :: cs) = c :: scanSub m (some c) cs := by
  show scanSubF m (cs.length + 1) prev (c :: cs) =
    c :: scanSubF m cs.length (some c) cs
  simp only [scanSubF, h]

theorem scanSub_cons_some (m : Matcher) (prev : Option Char) (c : Char)
    (cs : Txt) (n : Nat) (repl : Txt) (h : m prev (c :: cs) = some (n, repl)) :
    scanSub m prev (c :: cs) =
      repl ++ scanSub m (some ((c :: cs).getD n c)) (cs.drop n) := by
  show scanSubF m (cs.length + 1) prev (c :: cs) =
    repl ++ scanSubF m (cs.drop n).length (some ((c :: cs).getD n c)) (cs.drop n)
  simp only [scanSubF, h]
  congr 1
  apply scanSubF_fuel
  · have := List.length_drop n cs
    omega
  · exact Nat.le_refl _

/-- The previous-character tracker after scanning past `w`. -/
def endPrev (prev : Option Char) : Txt → Option Char
  | [] => prev
  | c :: cs => endPrev (some c) cs

theorem endPrev_cons (prev : Option Char) (c : Char) (w : Txt) :
    endPrev prev (c :: w) = endPrev (some c) w := rfl

/-- Generic segment-skip: if the matcher fails on every suffix whose head
satisfies `G`, scanning passes over a `G`-only segment unchanged. -/
theorem scanSub_skip_good (m : Matcher) (G : Char → Bool)
    (hG : ∀ (p : Option Char) (c : Char) (s : Txt), G c = true →
      m p (c :: s) = none) :
    ∀ (w y : Txt) (prev : Option Char), (∀ c ∈ w, G c = true) →
      scanSub m prev (w ++ y) = w ++ scanSub m (endPrev prev w) y := by
  intro w
  induction w with
  | nil => intro y prev _; simp [endPrev]
  | cons c w2 ih =>
      intro y prev hall
      have hc : G c = true := hall c (List.mem_cons_self _ _)
      have h1 : m prev (c :: (w2 ++ y)) = none := hG prev c _ hc
      rw [List.cons_append, scanSub_cons_none _ _ _ _ h1,
        ih y (some c) (fun x hx => hall x (List.mem_cons_of_mem _ hx)),
        endPrev_cons]
      rfl

theorem scanSub_id_good (m : Matcher) (G : Char → Bool)
    (hG : ∀ (p : Option Char) (c : Char) (s : Txt), G c = true →
      m p (c :: s) = none)
    (s : Txt) (prev : Option Char) (hall : ∀ c ∈ s, G c = true) :
    scanSub m prev s = s := by
  have := scanSub_skip_good m G hG s [] prev hall
  simpa [scanSub_nil] using this

/-- Pass 1 of `deobfuscate_text`:
`re.sub(r'\\u([0-9a-fA-F]{4})', lambda m: chr(int(m.group(1), 16)), result)`. -/
def hexVal (c : Char) : Option Nat :=
  if '0' ≤ c ∧ c ≤ '9' then some (c.toNat - 48)
  else if 'a' ≤ c ∧ c ≤ 'f' then some (c.toNat - 87)
  else if 'A' ≤ c ∧ c ≤ 'F' then some (c.toNat - 55)
  else none

def mUnicode : Matcher := fun _ s =>
  match s with
  | c0 :: c1 :: c2 :: c3 :: c4 :: c5 :: _ =>
      if c0 = '\\' ∧ c1 = 'u' then
        match hexVal c2, hexVal c3, hexVal c4, hexVal c5 with
        | some a, some b, some c, some d =>
            some (5, [Char.ofNat (((a * 16 + b) * 16 + c) * 16 + d)])
        | _, _, _, _ => none
      else none
  | _ => none

/-- Pass 2: `re.sub(r'u003[cCeE]', ...)` — `u003c/C ↦ '<'`, `u003e/E ↦ '>'`. -/
def mU003 : Matcher := fun _ s =>
  match s with
  | c0 :: c1 :: c2 :: c3 :: c4 :: _ =>
      if c0 = 'u' ∧ c1 = '0' ∧ c2 = '0' ∧ c3 = '3' then
        if c4 = 'c' ∨ c4 = 'C' then some (4, ['<'])
        else if c4 = 'e' ∨ c4 = 'E' then some (4, ['>'])
        else none
      else none
  | _ => none

/-- Bracketed obfuscation patterns `\s*OP\s*word\s*CL\s*` (case-insensitive),
e.g. `\s*\[\s*at\s*\]\s*`.  Maximal munch is exact here because whitespace is
disjoint from every literal that follows it. -/
def mBracket (op : Char) (w : Txt) (cl : Char) (repl : Txt) : Matcher :=
  fun _ s =>
    let n1 := (s.takeWhile isSpaceC).length
    match s.drop n1 with
    | c :: s2 =>
        if c = op then
          let n2 := (s2.takeWhile isSpaceC).length
          let s3 := s2.drop n2
          if ciStarts w s3 then
            let s4 := s3.drop w.length
            let n3 := (s4.takeWhile isSpaceC).length
            match s4.drop n3 with
            | c2 :: s6 =>
                if c2 = cl then
                  let n4 := (s6.takeWhile isSpaceC).length
                  some (n1 + 1 + n2 + w.length + n3 + 1 + n4 - 1, repl)
                else none
            | [] => none
          else none
        else none
    | [] => none

/-- Worded obfuscation patterns `(?<=\w)\s+word\s+(?=\w)` (case-insensitive);
the lookbehind reads the original previous character, the lookahead consumes
nothing. -/
def mWord (w : Txt) (repl : Txt) : Matcher := fun prev s =>
  match prev with
  | none => none
  | some p =>
      if isWordC p then
        let n1 := (s.takeWhile isSpaceC).length
        if n1 = 0 then none
        else
          let s1 := s.drop n1
          if ciStarts w s1 then
            let s2 := s1.drop w.length
            let n2 := (s2.takeWhile isSpaceC).length
            if n2 = 0 then none
            else
              match s2.drop n2 with
              | c :: _ =>
                  if isWordC c then some (n1 + w.length + n2 - 1, repl)
                  else none
              | [] => none
          else none
      else none

/-- HTML-entity obfuscation patterns (literal, case-insensitive). -/
def mLit (lit : Txt) (repl : Txt) : Matcher := fun _ s =>
  if ciStarts lit s then some (lit.length - 1, repl) else none

def mBrkAt : Matcher := mBracket '[' "at".toList ']' "@".toList
def mParAt : Matcher := mBracket '(' "at".toList ')' "@".toList
def mBrcAt : Matcher := mBracket lbrace "at".toList rbrace "@".toList
def mAngAt : Matcher := mBracket '<' "at".toList '>' "@".toList
def mBrkDot : Matcher := mBracket '[' "dot".toList ']' ".".toList
def mParDot : Matcher := mBracket '(' "dot".toList ')' ".".toList
def mBrcDot : Matcher := mBracket lbrace "dot".toList rbrace ".".toList
def mBrkArr : Matcher := mBracket '[' "arroba".toList ']' "@".toList
def mParArr : Matcher := mBracket '(' "arroba".toList ')' "@".toList
def mWordAt : Matcher := mWord "at".toList "@".toList
def mWordDot : Matcher := mWord "dot".toList ".".toList
def mEnt64 : Matcher := mLit "&#64;".toList "@".toList
def mEntX40 : Matcher := mLit "&#x40;".toList "@".toList
def mCommat : Matcher := mLit "&commat;".toList "@".toList

/-- scraper.py `deobfuscate_text`: the two escape-decoding passes followed by
the fourteen `OBFUSCATION_PATTERNS` substitutions, in source order. -/
def deobfuscate_text (s : Txt) : Txt :=
  scanSub mCommat none (scanSub mEntX40 none (scanSub mEnt64 none
    (scanSub mWordDot none (scanSub mWordAt none (scanSub mParArr none
      (scanSub mBrkArr none (scanSub mBrcDot none (scanSub mParDot none
        (scanSub mBrkDot none (scanSub mAngAt none (scanSub mBrcAt none
          (scanSub mParAt none (scanSub mBrkAt none (scanSub mU003 none
            (scanSub mUnicode none s)))))))))))))))

/-! ### EMAIL_REGEX findall (scraper.py line 99)

```
EMAIL_REGEX = re.compile(
  r'\b[a-zA-Z0-9][a-zA-Z0-9._%+-]*@[a-zA-Z0-9][a-zA-Z0-9.-]*\.[a-zA-Z]{2,}\b',
  re.IGNORECASE)
```
The local-part star cannot backtrack usefully (`@` is outside its class), so
maximal munch is exact; the domain star backtracks from its maximal munch
down, looking for a literal `.` followed by a maximal `[a-zA-Z]{2,}` run and a
word boundary (shortening the alpha run can never fix a failed boundary, so
only the maximal run is tested). -/

def isLocalC (c : Char) : Bool :=
  c.isAlphanum || c = '.' || c = '_' || c = '%' || c = '+' || c = '-'

def isDomC (c : Char) : Bool := c.isAlphanum || c = '.' || c = '-'

def boundaryOkAfter : Txt → Bool
  | [] => true
  | c :: _ => !(isWordC c)

def boundaryOkBefore : Option Char → Bool
  | none => true
  | some c => !(isWordC c)

/-- Try the domain-star length `i`: match `\.[a-zA-Z]{2,}\b` at `rest3.drop i`,
returning the total characters consumed from `rest3`. -/
def tldTry (rest3 : Txt) (i : Nat) : Option Nat :=
  match rest3.drop i with
  | c :: t =>
      if c = '.' then
        let a := t.takeWhile Char.isAlpha
        if 2 ≤ a.length ∧ boundaryOkAfter (t.drop a.length) = true then
          some (i + 1 + a.length)
        else none
      else none
  | [] => none

/-- Greedy search over domain-star lengths, longest first. -/
def tldSearch (rest3 : Txt) : Nat → Option Nat
  | 0 => tldTry rest3 0
  | n + 1 =>
      match tldTry rest3 (n + 1) with
      | some k => some k
      | none => tldSearch rest3 n

/-- Match `EMAIL_REGEX` anchored at the current position (with the previous
original character for the left word boundary); returns the match length. -/
def matchEmail (prev : Option Char) (s : Txt) : Option Nat :=
  if boundaryOkBefore prev = true then
    match s with
    | c :: rest =>
        if c.isAlphanum then
          let loc := rest.takeWhile isLocalC
          match rest.drop loc.length with
          | a :: rest2 =>
              if a = '@' then
                match rest2 with
                | d :: rest3 =>
                    if d.isAlphanum then
                      match tldSearch rest3 (rest3.takeWhile isDomC).length with
                      | some k => some (1 + loc.length + 1 + 1 + k)
                      | none => none
                    else none
                | [] => none
              else none
          | [] => none
        else none
    | [] => none
  else none

/-- `EMAIL_REGEX.findall`: scan left to right, emit each leftmost
non-overlapping match, continue after its end. -/
def emailScanF : Nat → Option Char → Txt → List Txt
  | 0, _, _ => []
  | _ + 1, _, [] => []
  | fuel + 1, prev, c :: cs =>
      match matchEmail prev (c :: cs) with
      | some n =>
          (c :: cs).take n ::
            emailScanF fuel (some ((c :: cs).getD (n - 1) c)) ((c :: cs).drop n)
      | none => emailScanF fuel (some c) cs

def emailScan (s : Txt) : List Txt := emailScanF s.length none s

/-! ### Obfuscated-address inputs

Canonical raw obfuscated strings: bracketed and worded markers are written
with the single surrounding spaces of the spec's example
(`"john [at] example [dot] com"`); HTML-entity markers are written without
surrounding spaces (`"john&#64;example.com"` style), as an entity marker is a
character reference standing directly in place of `@`. -/

inductive AtMarker
  | brk
  | par
  | brc
  | ang
  | word
  | ent64
  | entx40
  | commat
deriving DecidableEq, Repr

inductive DotMarker
  | brk
  | par
  | brc
  | word
deriving DecidableEq, Repr

def renderAt : AtMarker → Txt
  | .brk => " [at] ".toList
  | .par => " (at) ".toList
  | .brc => [' ', lbrace, 'a', 't', rbrace, ' ']
  | .ang => " <at> ".toList
  | .word => " at ".toList
  | .ent64 => "&#64;".toList
  | .entx40 => "&#x40;".toList
  | .commat => "&commat;".toList

def renderDot : DotMarker → Txt
  | .brk => " [dot] ".toList
  | .par => " (dot) ".toList
  | .brc => [' ', lbrace, 'd', 'o', 't', rbrace, ' ']
  | .word => " dot ".toList

/-- The address `local@w1.w2` obfuscated with the chosen at/dot markers. -/
def obfuscatedEmail (l : Txt) (a : AtMarker) (w1 : Txt) (d : DotMarker)
    (w2 : Txt) : Txt :=
  l ++ renderAt a ++ w1 ++ renderDot d ++ w2

/-- De-obfuscation followed by the email-regex scan
(`extract_emails_from_text` up to its regex scan). -/
def recoverEmails (s : Txt) : List Txt := emailScan (deobfuscate_text s)

/-! ### Character-class and list helper lemmas for the symbolic recovery
proof -/

theorem alpha_ne (c d : Char) (h : c.isAlpha = true) (hd : d.isAlpha = false) :
    c ≠ d := by
  intro he; rw [he, hd] at h; exact Bool.false_ne_true h

theorem isSpaceC_of_alpha (c : Char) (h : c.isAlpha = true) :
    isSpaceC c = false := by
  cases hsp : isSpaceC c
  · rfl
  · exfalso
    unfold isSpaceC at hsp
    simp only [Bool.or_eq_true, decide_eq_true_eq] at hsp
    rcases hsp with ((((h1 | h1) | h1) | h1) | h1) | h1 <;>
      (subst h1; exact absurd h (by decide))

theorem isWordC_of_alpha (c : Char) (h : c.isAlpha = true) :
    isWordC c = true := by
  unfold isWordC Char.isAlphanum
  simp [h]

theorem alphanum_of_alpha (c : Char) (h : c.isAlpha = true) :
    c.isAlphanum = true := by
  unfold Char.isAlphanum
  simp [h]

theorem isLocalC_of_alpha (c : Char) (h : c.isAlpha = true) :
    isLocalC c = true := by
  unfold isLocalC
  simp [alphanum_of_alpha c h]

theorem isDomC_of_alpha (c : Char) (h : c.isAlpha = true) :
    isDomC c = true := by
  unfold isDomC
  simp [alphanum_of_alpha c h]

theorem takeWhile_all {p : Char → Bool} (w : Txt) (h : ∀ c ∈ w, p c = true) :
    w.takeWhile p = w :=
  List.takeWhile_eq_self_iff.mpr h

theorem takeWhile_append_stop {p : Char → Bool} (w : Txt) (d : Char) (y : Txt)
    (hw : ∀ c ∈ w, p c = true) (hd : p d = false) :
    (w ++ d :: y).takeWhile p = w := by
  induction w with
  | nil => simp [List.takeWhile, hd]
  | cons c w2 ih =>
      have hc : p c = true := hw c (List.mem_cons_self _ _)
      simp only [List.cons_append, List.takeWhile_cons, hc, if_true]
      rw [ih (fun x hx => hw x (List.mem_cons_of_mem _ hx))]

theorem drop_takeWhile_length {p : Char → Bool} (s : Txt) :
    s.drop (s.takeWhile p).length = s.dropWhile p := by
  induction s with
  | nil => rfl
  | cons c cs ih =>
      by_cases hc : p c = true
      · simp only [List.takeWhile_cons, hc, if_true, List.dropWhile_cons, hc,
          List.length_cons, List.drop_succ_cons]
        exact ih
      · have hc' : p c = false := by revert hc; cases p c <;> simp
        simp [List.takeWhile_cons, List.dropWhile_cons, hc']

/-! ### Matcher failure lemmas -/

theorem mBracket_none_head (op : Char) (w : Txt) (cl : Char) (repl : Txt)
    (p : Option Char) (s : Txt)
    (h : (s.dropWhile isSpaceC).head? ≠ some op) :
    mBracket op w cl repl p s = none := by
  simp only [mBracket]
  rw [drop_takeWhile_length]
  cases hd : s.dropWhile isSpaceC with
  | nil => rfl
  | cons c s2 =>
      have hc : c ≠ op := by
        intro he; subst he; rw [hd] at h; exact h rfl
      simp [hc]

theorem mBracket_none_good (op : Char) (w : Txt) (cl : Char) (repl : Txt)
    (p : Option Char) (c : Char) (rest : Txt)
    (h1 : isSpaceC c = false) (h2 : c ≠ op) :
    mBracket op w cl repl p (c :: rest) = none := by
  apply mBracket_none_head
  rw [List.dropWhile_cons, h1]
  simp
  exact h2

theorem mWord_none_nospace (w : Txt) (repl : Txt) (p : Option Char) (c : Char)
    (rest : Txt) (h : isSpaceC c = false) :
    mWord w repl p (c :: rest) = none := by
  simp only [mWord]
  cases p with
  | none => rfl
  | some q =>
      by_cases hq : isWordC q = true
      · have hn1 : ((c :: rest).takeWhile isSpaceC).length = 0 := by
          simp [List.takeWhile_cons, h]
        simp [hq, hn1]
      · have hq' : isWordC q = false := by revert hq; cases isWordC q <;> simp
        simp [hq']

theorem mLit_none_head (a : Char) (ps : List Char) (repl : Txt)
    (p : Option Char) (c : Char) (rest : Txt) (h : ciChar a c = false) :
    mLit (a :: ps) repl p (c :: rest) = none := by
  unfold mLit
  have : ciStarts (a :: ps) (c :: rest) = false := by
    show (ciChar a c && ciStarts ps rest) = false
    rw [h]; rfl
  rw [this]; rfl

theorem ciChar_amp (c : Char) (h : c ≠ '&') : ciChar '&' c = false := by
  unfold ciChar
  have hl : Char.isLower '&' = false := by decide
  rw [hl]
  simp [h]

theorem mUnicode_none (p : Option Char) (c : Char) (rest : Txt)
    (h : c ≠ '\\') : mUnicode p (c :: rest) = none := by
  unfold mUnicode
  match rest with
  | [] => rfl
  | [c1] => rfl
  | [c1, c2] => rfl
  | [c1, c2, c3] => rfl
  | [c1, c2, c3, c4] => rfl
  | c1 :: c2 :: c3 :: c4 :: c5 :: r =>
      simp only
      rw [if_neg]
      rintro ⟨h1, -⟩
      exact h h1

theorem mU003_none (p : Option Char) (c : Char) (rest : Txt)
    (h : c ≠ 'u' ∨ rest.head? ≠ some '0') : mU003 p (c :: rest) = none := by
  unfold mU003
  match rest with
  | [] => rfl
  | [c1] => rfl
  | [c1, c2] => rfl
  | [c1, c2, c3] => rfl
  | c1 :: c2 :: c3 :: c4 :: r =>
      simp only
      rw [if_neg]
      rintro ⟨h1, h2, -⟩
      rcases h with hc | hc
      · exact hc h1
      · apply hc; rw [h2]; rfl

/-! ### Segment-skip instances -/

theorem scanSub_skip_bracket (op : Char) (w : Txt) (cl : Char) (repl : Txt)
    (seg y : Txt) (prev : Option Char)
    (hall : ∀ c ∈ seg, isSpaceC c = false ∧ c ≠ op) :
    scanSub (mBracket op w cl repl) prev (seg ++ y) =
      seg ++ scanSub (mBracket op w cl repl) (endPrev prev seg) y :=
  scanSub_skip_good (mBracket op w cl repl)
    (fun c => !(isSpaceC c) && decide (c ≠ op))
    (fun p c s hc => by
      simp only [Bool.and_eq_true, Bool.not_eq_true', decide_eq_true_eq] at hc
      exact mBracket_none_good op w cl repl p c s hc.1 hc.2)
    seg y prev
    (fun c hc => by
      simp only [Bool.and_eq_true, Bool.not_eq_true', decide_eq_true_eq]
      exact hall c hc)

theorem scanSub_skip_word (w repl : Txt) (seg y : Txt) (prev : Option Char)
    (hall : ∀ c ∈ seg, isSpaceC c = false) :
    scanSub (mWord w repl) prev (seg ++ y) =
      seg ++ scanSub (mWord w repl) (endPrev prev seg) y :=
  scanSub_skip_good (mWord w repl) (fun c => !(isSpaceC c))
    (fun p c s hc => by
      simp only [Bool.not_eq_true'] at hc
      exact mWord_none_nospace w repl p c s hc)
    seg y prev
    (fun c hc => by
      simp only [Bool.not_eq_true']
      exact hall c hc)

theorem scanSub_skip_amp (ps : List Char) (repl : Txt) (seg y : Txt)
    (prev : Option Char) (hall : ∀ c ∈ seg, c ≠ '&') :
    scanSub (mLit ('&' :: ps) repl) prev (seg ++ y) =
      seg ++ scanSub (mLit ('&' :: ps) repl) (endPrev prev seg) y :=
  scanSub_skip_good (mLit ('&' :: ps) repl) (fun c => decide (c ≠ '&'))
    (fun p c s hc => by
      simp only [decide_eq_true_eq] at hc
      exact mLit_none_head '&' ps repl p c s (ciChar_amp c hc))
    seg y prev
    (fun c hc => by
      simp only [decide_eq_true_eq]
      exact hall c hc)

theorem scanSub_skip_uni (seg y : Txt) (prev : Option Char)
    (hall : ∀ c ∈ seg, c ≠ '\\') :
    scanSub mUnicode prev (seg ++ y) =
      seg ++ scanSub mUnicode (endPrev prev seg) y :=
  scanSub_skip_good mUnicode (fun c => decide (c ≠ '\\'))
    (fun p c s hc => by
      simp only [decide_eq_true_eq] at hc
      exact mUnicode_none p c s hc)
    seg y prev
    (fun c hc => by
      simp only [decide_eq_true_eq]
      exact hall c hc)

theorem scanSub_skip_no_u (seg y : Txt) (prev : Option Char)
    (hall : ∀ c ∈ seg, c ≠ 'u') :
    scanSub mU003 prev (seg ++ y) =
      seg ++ scanSub mU003 (endPrev prev seg) y :=
  scanSub_skip_good mU003 (fun c => decide (c ≠ 'u'))
    (fun p c s hc => by
      simp only [decide_eq_true_eq] at hc
      exact mU003_none p c s (Or.inl hc))
    seg y prev
    (fun c hc => by
      simp only [decide_eq_true_eq]
      exact hall c hc)

theorem scanSub_skip_u003_alpha (seg y : Txt) (prev : Option Char)
    (hw : ∀ c ∈ seg, c.isAlpha = true) (hy : y.head? ≠ some '0') :
    scanSub mU003 prev (seg ++ y) =
      seg ++ scanSub mU003 (endPrev prev seg) y := by
  induction seg generalizing prev with
  | nil => simp [endPrev]
  | cons c w2 ih =>
      have hnone : mU003 prev (c :: (w2 ++ y)) = none := by
        apply mU003_none
        right
        cases w2 with
        | nil => simpa using hy
        | cons d w3 =>
            have hd : d.isAlpha = true := hw d (by simp)
            simp only [List.cons_append, List.head?_cons]
            intro he
            have : d = '0' := by injection he
            exact alpha_ne d '0' hd (by decide) this
      rw [List.cons_append, scanSub_cons_none _ _ _ _ hnone,
        ih (some c) (fun x hx => hw x (List.mem_cons_of_mem _ hx)), endPrev_cons]
      rfl

theorem alpha_ws_facts (c : Char) (h : c.isAlpha = true) :
    c ≠ ' ' ∧ c ≠ '\t' ∧ c ≠ '\n' ∧ c ≠ '\x0d' ∧ c ≠ '\x0b' ∧ c ≠ '\x0c' :=
  ⟨alpha_ne c _ h (by decide), alpha_ne c _ h (by decide),
   alpha_ne c _ h (by decide), alpha_ne c _ h (by decide),
   alpha_ne c _ h (by decide), alpha_ne c _ h (by decide)⟩

/-- `\s*\[\s*at\s*\]\s*` fires on `" [at] "` followed by a letter, consuming
the marker together with its surrounding spaces. -/
theorem mBrkAt_fire (P : Option Char) (c1 : Char) (r : Txt)
    (hc1 : c1.isAlpha = true) :
    mBrkAt P (' ' :: '[' :: 'a' :: 't' :: ']' :: ' ' :: c1 :: r) =
      some (5, "@".toList) := by
  obtain ⟨e1, e2, e3, e4, e5, e6⟩ := alpha_ws_facts c1 hc1
  simp [mBrkAt, mBracket, List.takeWhile_cons,
    ciStarts, ciChar, isSpaceC, e1, e2, e3, e4, e5, e6]

/-- `\s*\[\s*dot\s*\]\s*` fires on `" [dot] "` followed by a letter. -/
theorem mBrkDot_fire (P : Option Char) (c2 : Char) (r : Txt)
    (hc2 : c2.isAlpha = true) :
    mBrkDot P (' ' :: '[' :: 'd' :: 'o' :: 't' :: ']' :: ' ' :: c2 :: r) =
      some (6, ".".toList) := by
  obtain ⟨e1, e2, e3, e4, e5, e6⟩ := alpha_ws_facts c2 hc2
  simp [mBrkDot, mBracket, List.takeWhile_cons,
    ciStarts, ciChar, isSpaceC, e1, e2, e3, e4, e5, e6]

theorem mBrkAt_none_brkdot (P : Option Char) (z : Txt) :
    mBrkAt P (' ' :: '[' :: 'd' :: 'o' :: 't' :: ']' :: ' ' :: z) = none := by
  simp [mBrkAt, mBracket, List.takeWhile_cons, ciStarts, ciChar, isSpaceC]

theorem mBrkAt_none_brkdot2 (P : Option Char) (z : Txt) :
    mBrkAt P ('[' :: 'd' :: 'o' :: 't' :: ']' :: ' ' :: z) = none := by
  simp [mBrkAt, mBracket, List.takeWhile_cons, ciStarts, ciChar, isSpaceC]

theorem mBracket_none_ws_then (op : Char) (w : Txt) (cl : Char) (repl : Txt)
    (P : Option Char) (c2 : Char) (z : Txt) (hc2 : c2.isAlpha = true)
    (hop : c2 ≠ op) :
    mBracket op w cl repl P (' ' :: c2 :: z) = none := by
  apply mBracket_none_head
  rw [List.dropWhile_cons]
  simp only [show isSpaceC ' ' = true from by decide, if_true]
  rw [List.dropWhile_cons, isSpaceC_of_alpha c2 hc2]
  simp only [Bool.false_eq_true, if_false, List.head?_cons, ne_eq,
    Option.some.injEq]
  exact hop

/-- Passing the `mBrkAt` scan over the not-yet-rewritten `" [dot] "` marker:
the opening bracket is inspected but `at` fails against `dot`. -/
theorem scanSub_mBrkAt_over_brkDot (P : Option Char) (c2 : Char) (z : Txt)
    (hc2 : c2.isAlpha = true) :
    scanSub mBrkAt P (" [dot] ".toList ++ (c2 :: z)) =
      " [dot] ".toList ++ scanSub mBrkAt (some ' ') (c2 :: z) := by
  have g1 : mBrkAt (some '[') ('d' :: 'o' :: 't' :: ']' :: ' ' :: c2 :: z) =
      none := mBracket_none_good _ _ _ _ _ _ _ (by decide) (by decide)
  have g2 : mBrkAt (some 'd') ('o' :: 't' :: ']' :: ' ' :: c2 :: z) = none :=
    mBracket_none_good _ _ _ _ _ _ _ (by decide) (by decide)
  have g3 : mBrkAt (some 'o') ('t' :: ']' :: ' ' :: c2 :: z) = none :=
    mBracket_none_good _ _ _ _ _ _ _ (by decide) (by decide)
  have g4 : mBrkAt (some 't') (']' :: ' ' :: c2 :: z) = none :=
    mBracket_none_good _ _ _ _ _ _ _ (by decide) (by decide)
  have g5 : mBrkAt (some ']') (' ' :: c2 :: z) = none :=
    mBracket_none_ws_then _ _ _ _ _ c2 z hc2 (alpha_ne c2 '[' hc2 (by decide))
  show scanSub mBrkAt P
      (' ' :: '[' :: 'd' :: 'o' :: 't' :: ']' :: ' ' :: c2 :: z) =
    ' ' :: '[' :: 'd' :: 'o' :: 't' :: ']' :: ' ' ::
      scanSub mBrkAt (some ' ') (c2 :: z)
  rw [scanSub_cons_none _ _ _ _ (mBrkAt_none_brkdot P (c2 :: z)),
    scanSub_cons_none _ _ _ _ (mBrkAt_none_brkdot2 (some ' ') (c2 :: z)),
    scanSub_cons_none _ _ _ _ g1, scanSub_cons_none _ _ _ _ g2,
    scanSub_cons_none _ _ _ _ g3, scanSub_cons_none _ _ _ _ g4,
    scanSub_cons_none _ _ _ _ g5]

/-- Passing any other bracket-pattern scan over the `" [dot] "` marker. -/
theorem scanSub_bracket_over_brkDot (op : Char) (w : Txt) (cl : Char)
    (repl : Txt) (P : Option Char) (c2 : Char) (z : Txt)
    (hc2 : c2.isAlpha = true) (hop1 : op ≠ '[') (hop2 : op ≠ ']')
    (hop3 : op.isAlpha = false) :
    scanSub (mBracket op w cl repl) P (" [dot] ".toList ++ (c2 :: z)) =
      " [dot] ".toList ++ scanSub (mBracket op w cl repl) (some ' ') (c2 :: z) := by
  have h0 : mBracket op w cl repl P
      (' ' :: '[' :: 'd' :: 'o' :: 't' :: ']' :: ' ' :: c2 :: z) = none := by
    apply mBracket_none_head
    rw [List.dropWhile_cons]
    simp only [show isSpaceC ' ' = true from by decide, if_true,
      List.dropWhile_cons]
    simp only [show isSpaceC '[' = false from by decide, Bool.false_eq_true,
      if_false, List.head?_cons, ne_eq, Option.some.injEq]
    exact fun hh => hop1 hh.symm
  have g0 : mBracket op w cl repl (some ' ')
      ('[' :: 'd' :: 'o' :: 't' :: ']' :: ' ' :: c2 :: z) = none :=
    mBracket_none_good _ _ _ _ _ _ _ (by decide) (fun hh => hop1 hh.symm)
  have g1 : mBracket op w cl repl (some '[')
      ('d' :: 'o' :: 't' :: ']' :: ' ' :: c2 :: z) = none :=
    mBracket_none_good _ _ _ _ _ _ _ (by decide)
      (alpha_ne 'd' op (by decide) hop3)
  have g2 : mBracket op w cl repl (some 'd')
      ('o' :: 't' :: ']' :: ' ' :: c2 :: z) = none :=
    mBracket_none_good _ _ _ _ _ _ _ (by decide)
      (alpha_ne 'o' op (by decide) hop3)
  have g3 : mBracket op w cl repl (some 'o') ('t' :: ']' :: ' ' :: c2 :: z) =
      none :=
    mBracket_none_good _ _ _ _ _ _ _ (by decide)
      (alpha_ne 't' op (by decide) hop3)
  have g4 : mBracket op w cl repl (some 't') (']' :: ' ' :: c2 :: z) = none :=
    mBracket_none_good _ _ _ _ _ _ _ (by decide) (fun hh => hop2 hh.symm)
  have g5 : mBracket op w cl repl (some ']') (' ' :: c2 :: z) = none :=
    mBracket_none_ws_then _ _ _ _ _ c2 z hc2 (alpha_ne c2 op hc2 hop3)
  show scanSub (mBracket op w cl repl) P
      (' ' :: '[' :: 'd' :: 'o' :: 't' :: ']' :: ' ' :: c2 :: z) =
    ' ' :: '[' :: 'd' :: 'o' :: 't' :: ']' :: ' ' ::
      scanSub (mBracket op w cl repl) (some ' ') (c2 :: z)
  rw [scanSub_cons_none _ _ _ _ h0, scanSub_cons_none _ _ _ _ g0,
    scanSub_cons_none _ _ _ _ g1, scanSub_cons_none _ _ _ _ g2,
    scanSub_cons_none _ _ _ _ g3, scanSub_cons_none _ _ _ _ g4,
    scanSub_cons_none _ _ _ _ g5]

theorem scanSub_id_bracket (op : Char) (w : Txt) (cl : Char) (repl : Txt)
    (seg : Txt) (prev : Option Char)
    (hall : ∀ c ∈ seg, isSpaceC c = false ∧ c ≠ op) :
    scanSub (mBracket op w cl repl) prev seg = seg := by
  have := scanSub_skip_bracket op w cl repl seg [] prev hall
  simpa [scanSub_nil] using this

theorem scanSub_id_u003_alpha (seg : Txt) (prev : Option Char)
    (hw : ∀ c ∈ seg, c.isAlpha = true) :
    scanSub mU003 prev seg = seg := by
  have := scanSub_skip_u003_alpha seg [] prev hw (by simp)
  simpa [scanSub_nil] using this

/-- The characters of the obfuscated bracket/bracket input. -/
theorem chars_brkbrk (l w1 w2 : Txt)
    (hl : ∀ c ∈ l, c.isAlpha = true) (h1 : ∀ c ∈ w1, c.isAlpha = true)
    (h2 : ∀ c ∈ w2, c.isAlpha = true) :
    ∀ c ∈ l ++ (" [at] ".toList ++ (w1 ++ (" [dot] ".toList ++ w2))),
      c.isAlpha = true ∨ c = ' ' ∨ c = '[' ∨ c = ']' := by
  intro c hc
  simp only [List.mem_append] at hc
  rcases hc with hc | hc | hc | hc | hc
  · exact Or.inl (hl c hc)
  · simp only [String.toList] at hc
    fin_cases hc <;> decide
  · exact Or.inl (h1 c hc)
  · simp only [String.toList] at hc
    fin_cases hc <;> decide
  · exact Or.inl (h2 c hc)

/-- The characters of the recovered plain address. -/
theorem chars_clean (l w1 w2 : Txt)
    (hl : ∀ c ∈ l, c.isAlpha = true) (h1 : ∀ c ∈ w1, c.isAlpha = true)
    (h2 : ∀ c ∈ w2, c.isAlpha = true) :
    ∀ c ∈ l ++ ('@' :: (w1 ++ ('.' :: w2))),
      c.isAlpha = true ∨ c = '@' ∨ c = '.' := by
  intro c hc
  simp only [List.mem_append, List.mem_cons] at hc
  rcases hc with hc | hc | hc | hc | hc
  · exact Or.inl (hl c hc)
  · exact Or.inr (Or.inl hc)
  · exact Or.inl (h1 c hc)
  · exact Or.inr (Or.inr hc)
  · exact Or.inl (h2 c hc)

/-- Stage abbreviations for the `[at]`/`[dot]` symbolic recovery proof. -/
def stage0 (l w1 w2 : Txt) : Txt :=
  l ++ (" [at] ".toList ++ (w1 ++ (" [dot] ".toList ++ w2)))

def stage1 (l w1 w2 : Txt) : Txt :=
  l ++ ('@' :: (w1 ++ (" [dot] ".toList ++ w2)))

def stage2 (l w1 w2 : Txt) : Txt :=
  l ++ ('@' :: (w1 ++ ('.' :: w2)))

theorem pass_uni_S0 (l w1 w2 : Txt)
    (hl : ∀ c ∈ l, c.isAlpha = true) (h1 : ∀ c ∈ w1, c.isAlpha = true)
    (h2 : ∀ c ∈ w2, c.isAlpha = true) :
    scanSub mUnicode none (stage0 l w1 w2) = stage0 l w1 w2 := by
  apply scanSub_id_good mUnicode (fun c => decide (c ≠ '\\'))
  · intro p c s hc
    simp only [decide_eq_true_eq] at hc
    exact mUnicode_none p c s hc
  · intro c hc
    simp only [decide_eq_true_eq]
    rcases chars_brkbrk l w1 w2 hl h1 h2 c hc with h | rfl | rfl | rfl
    · exact alpha_ne c _ h (by decide)
    · decide
    · decide
    · decide

theorem pass_u003_S0 (l w1 w2 : Txt)
    (hl : ∀ c ∈ l, c.isAlpha = true) (h1 : ∀ c ∈ w1, c.isAlpha = true)
    (h2 : ∀ c ∈ w2, c.isAlpha = true) :
    scanSub mU003 none (stage0 l w1 w2) = stage0 l w1 w2 := by
  unfold stage0
  rw [scanSub_skip_u003_alpha l _ none hl (by simp),
    scanSub_skip_no_u (" [at] ".toList) _ _ (by decide),
    scanSub_skip_u003_alpha w1 _ _ h1 (by simp),
    scanSub_skip_no_u (" [dot] ".toList) _ _ (by decide),
    scanSub_id_u003_alpha w2 _ h2]

theorem pass_brkAt_S0 (l w1' w2' : Txt) (c1 c2 : Char)
    (hl : ∀ c ∈ l, c.isAlpha = true)
    (h1 : ∀ c ∈ c1 :: w1', c.isAlpha = true)
    (h2 : ∀ c ∈ c2 :: w2', c.isAlpha = true) :
    scanSub mBrkAt none (stage0 l (c1 :: w1') (c2 :: w2')) =
      stage1 l (c1 :: w1') (c2 :: w2') := by
  have hc1 : c1.isAlpha = true := h1 c1 (List.mem_cons_self _ _)
  have hc2 : c2.isAlpha = true := h2 c2 (List.mem_cons_self _ _)
  have hGl : ∀ c ∈ l, isSpaceC c = false ∧ c ≠ '[' := fun c hc =>
    ⟨isSpaceC_of_alpha c (hl c hc), alpha_ne c '[' (hl c hc) (by decide)⟩
  have hGw1 : ∀ c ∈ c1 :: w1', isSpaceC c = false ∧ c ≠ '[' := fun c hc =>
    ⟨isSpaceC_of_alpha c (h1 c hc), alpha_ne c '[' (h1 c hc) (by decide)⟩
  have hGw2 : ∀ c ∈ c2 :: w2', isSpaceC c = false ∧ c ≠ '[' := fun c hc =>
    ⟨isSpaceC_of_alpha c (h2 c hc), alpha_ne c '[' (h2 c hc) (by decide)⟩
  have hskip : ∀ (seg y : Txt) (prev : Option Char),
      (∀ c ∈ seg, isSpaceC c = false ∧ c ≠ '[') →
      scanSub mBrkAt prev (seg ++ y) =
        seg ++ scanSub mBrkAt (endPrev prev seg) y :=
    fun seg y prev hall =>
      scanSub_skip_bracket '[' ("at".toList) ']' ("@".toList) seg y prev hall
  have hid : ∀ (seg : Txt) (prev : Option Char),
      (∀ c ∈ seg, isSpaceC c = false ∧ c ≠ '[') →
      scanSub mBrkAt prev seg = seg :=
    fun seg prev hall =>
      scanSub_id_bracket '[' ("at".toList) ']' ("@".toList) seg prev hall
  unfold stage0 stage1
  rw [hskip l _ none hGl]
  congr 1
  show scanSub mBrkAt (endPrev none l)
      (' ' :: '[' :: 'a' :: 't' :: ']' :: ' ' :: c1 ::
        (w1' ++ (" [dot] ".toList ++ (c2 :: w2')))) = _
  rw [scanSub_cons_some mBrkAt (endPrev none l) ' '
    ('[' :: 'a' :: 't' :: ']' :: ' ' :: c1 ::
      (w1' ++ (" [dot] ".toList ++ (c2 :: w2')))) 5 ("@".toList)
    (mBrkAt_fire (endPrev none l) c1 _ hc1)]
  simp only [List.getD_cons_succ, List.getD_cons_zero, List.drop_succ_cons,
    List.drop_zero]
  show '@' :: scanSub mBrkAt (some ' ')
      ((c1 :: w1') ++ (" [dot] ".toList ++ (c2 :: w2'))) = _
  rw [hskip (c1 :: w1') _ (some ' ') hGw1]
  rw [scanSub_mBrkAt_over_brkDot _ c2 w2' hc2]
  rw [hid (c2 :: w2') _ hGw2]

theorem pass_bracket_S1 (op : Char) (w : Txt) (cl : Char) (repl : Txt)
    (l w1 w2' : Txt) (c2 : Char)
    (hl : ∀ c ∈ l, c.isAlpha = true) (h1 : ∀ c ∈ w1, c.isAlpha = true)
    (h2 : ∀ c ∈ c2 :: w2', c.isAlpha = true)
    (hop1 : op ≠ '[') (hop2 : op ≠ ']') (hop3 : op.isAlpha = false)
    (hop4 : op ≠ '@') :
    scanSub (mBracket op w cl repl) none (stage1 l w1 (c2 :: w2')) =
      stage1 l w1 (c2 :: w2') := by
  have hc2 : c2.isAlpha = true := h2 c2 (List.mem_cons_self _ _)
  have hGl : ∀ c ∈ l, isSpaceC c = false ∧ c ≠ op := fun c hc =>
    ⟨isSpaceC_of_alpha c (hl c hc), alpha_ne c op (hl c hc) hop3⟩
  have hGw1 : ∀ c ∈ w1, isSpaceC c = false ∧ c ≠ op := fun c hc =>
    ⟨isSpaceC_of_alpha c (h1 c hc), alpha_ne c op (h1 c hc) hop3⟩
  have hGw2 : ∀ c ∈ c2 :: w2', isSpaceC c = false ∧ c ≠ op := fun c hc =>
    ⟨isSpaceC_of_alpha c (h2 c hc), alpha_ne c op (h2 c hc) hop3⟩
  have hGat : ∀ c ∈ ['@'], isSpaceC c = false ∧ c ≠ op := by
    intro c hc
    simp at hc
    subst hc
    exact ⟨by decide, fun hh => hop4 hh.symm⟩
  unfold stage1
  rw [scanSub_skip_bracket op w cl repl l _ none hGl]
  congr 1
  show scanSub (mBracket op w cl repl) (endPrev none l)
      (['@'] ++ (w1 ++ (" [dot] ".toList ++ (c2 :: w2')))) = _
  rw [scanSub_skip_bracket op w cl repl ['@'] _ _ hGat,
    scanSub_skip_bracket op w cl repl w1 _ _ hGw1,
    scanSub_bracket_over_brkDot op w cl repl _ c2 w2' hc2 hop1 hop2 hop3,
    scanSub_id_bracket op w cl repl (c2 :: w2') _ hGw2]
  rfl

theorem pass_brkDot_S1 (l w1 w2' : Txt) (c2 : Char)
    (hl : ∀ c ∈ l, c.isAlpha = true) (h1 : ∀ c ∈ w1, c.isAlpha = true)
    (h2 : ∀ c ∈ c2 :: w2', c.isAlpha = true) :
    scanSub mBrkDot none (stage1 l w1 (c2 :: w2')) =
      stage2 l w1 (c2 :: w2') := by
  have hc2 : c2.isAlpha = true := h2 c2 (List.mem_cons_self _ _)
  have hskip : ∀ (seg y : Txt) (prev : Option Char),
      (∀ c ∈ seg, isSpaceC c = false ∧ c ≠ '[') →
      scanSub mBrkDot prev (seg ++ y) =
        seg ++ scanSub mBrkDot (endPrev prev seg) y :=
    fun seg y prev hall =>
      scanSub_skip_bracket '[' ("dot".toList) ']' (".".toList) seg y prev hall
  have hid : ∀ (seg : Txt) (prev : Option Char),
      (∀ c ∈ seg, isSpaceC c = false ∧ c ≠ '[') →
      scanSub mBrkDot prev seg = seg :=
    fun seg prev hall =>
      scanSub_id_bracket '[' ("dot".toList) ']' (".".toList) seg prev hall
  have hGl : ∀ c ∈ l, isSpaceC c = false ∧ c ≠ '[' := fun c hc =>
    ⟨isSpaceC_of_alpha c (hl c hc), alpha_ne c '[' (hl c hc) (by decide)⟩
  have hGw1 : ∀ c ∈ w1, isSpaceC c = false ∧ c ≠ '[' := fun c hc =>
    ⟨isSpaceC_of_alpha c (h1 c hc), alpha_ne c '[' (h1 c hc) (by decide)⟩
  have hGw2 : ∀ c ∈ c2 :: w2', isSpaceC c = false ∧ c ≠ '[' := fun c hc =>
    ⟨isSpaceC_of_alpha c (h2 c hc), alpha_ne c '[' (h2 c hc) (by decide)⟩
  have hGat : ∀ c ∈ ['@'], isSpaceC c = false ∧ c ≠ '[' := by
    intro c hc; simp at hc; subst hc; exact ⟨by decide, by decide⟩
  unfold stage1 stage2
  rw [hskip l _ none hGl]
  congr 1
  show scanSub mBrkDot (endPrev none l)
      (['@'] ++ (w1 ++ (" [dot] ".toList ++ (c2 :: w2')))) = _
  rw [hskip ['@'] _ _ hGat, hskip w1 _ _ hGw1]
  show ['@'] ++ (w1 ++ scanSub mBrkDot (endPrev (endPrev (endPrev none l) ['@']) w1)
      (' ' :: '[' :: 'd' :: 'o' :: 't' :: ']' :: ' ' :: c2 :: w2')) = _
  rw [scanSub_cons_some mBrkDot _ ' '
    ('[' :: 'd' :: 'o' :: 't' :: ']' :: ' ' :: c2 :: w2') 6 (".".toList)
    (mBrkDot_fire _ c2 _ hc2)]
  simp only [List.getD_cons_succ, List.getD_cons_zero, List.drop_succ_cons,
    List.drop_zero]
  rw [hid (c2 :: w2') _ hGw2]
  rfl

theorem pass_bracket_S2 (op : Char) (w : Txt) (cl : Char) (repl : Txt)
    (l w1 w2 : Txt)
    (hl : ∀ c ∈ l, c.isAlpha = true) (h1 : ∀ c ∈ w1, c.isAlpha = true)
    (h2 : ∀ c ∈ w2, c.isAlpha = true)
    (hop3 : op.isAlpha = false) (hop4 : op ≠ '@') (hop5 : op ≠ '.') :
    scanSub (mBracket op w cl repl) none (stage2 l w1 w2) =
      stage2 l w1 w2 := by
  apply scanSub_id_good (mBracket op w cl repl)
    (fun c => !(isSpaceC c) && decide (c ≠ op))
  · intro p c s hc
    simp only [Bool.and_eq_true, Bool.not_eq_true', decide_eq_true_eq] at hc
    exact mBracket_none_good op w cl repl p c s hc.1 hc.2
  · intro c hc
    simp only [Bool.and_eq_true, Bool.not_eq_true', decide_eq_true_eq]
    rcases chars_clean l w1 w2 hl h1 h2 c hc with h | rfl | rfl
    · exact ⟨isSpaceC_of_alpha c h, alpha_ne c op h hop3⟩
    · exact ⟨by decide, fun hh => hop4 hh.symm⟩
    · exact ⟨by decide, fun hh => hop5 hh.symm⟩

theorem pass_word_S2 (w repl : Txt) (l w1 w2 : Txt)
    (hl : ∀ c ∈ l, c.isAlpha = true) (h1 : ∀ c ∈ w1, c.isAlpha = true)
    (h2 : ∀ c ∈ w2, c.isAlpha = true) :
    scanSub (mWord w repl) none (stage2 l w1 w2) = stage2 l w1 w2 := by
  apply scanSub_id_good (mWord w repl) (fun c => !(isSpaceC c))
  · intro p c s hc
    simp only [Bool.not_eq_true'] at hc
    exact mWord_none_nospace w repl p c s hc
  · intro c hc
    simp only [Bool.not_eq_true']
    rcases chars_clean l w1 w2 hl h1 h2 c hc with h | rfl | rfl
    · exact isSpaceC_of_alpha c h
    · decide
    · decide

theorem pass_lit_S2 (ps : List Char) (repl : Txt) (l w1 w2 : Txt)
    (hl : ∀ c ∈ l, c.isAlpha = true) (h1 : ∀ c ∈ w1, c.isAlpha = true)
    (h2 : ∀ c ∈ w2, c.isAlpha = true) :
    scanSub (mLit ('&' :: ps) repl) none (stage2 l w1 w2) = stage2 l w1 w2 := by
  apply scanSub_id_good (mLit ('&' :: ps) repl) (fun c => decide (c ≠ '&'))
  · intro p c s hc
    simp only [decide_eq_true_eq] at hc
    exact mLit_none_head '&' ps repl p c s (ciChar_amp c hc)
  · intro c hc
    simp only [decide_eq_true_eq]
    rcases chars_clean l w1 w2 hl h1 h2 c hc with h | rfl | rfl
    · exact alpha_ne c '&' h (by decide)
    · decide
    · decide

/-- De-obfuscating the `[at]`/`[dot]` input recovers the plain address. -/
theorem deob_brk_brk (l w1' w2' : Txt) (c1 c2 : Char)
    (hl : ∀ c ∈ l, c.isAlpha = true)
    (h1 : ∀ c ∈ c1 :: w1', c.isAlpha = true)
    (h2 : ∀ c ∈ c2 :: w2', c.isAlpha = true) :
    deobfuscate_text
        (obfuscatedEmail l AtMarker.brk (c1 :: w1') DotMarker.brk (c2 :: w2')) =
      stage2 l (c1 :: w1') (c2 :: w2') := by
  have hshape : obfuscatedEmail l AtMarker.brk (c1 :: w1') DotMarker.brk
      (c2 :: w2') = stage0 l (c1 :: w1') (c2 :: w2') := by
    simp [obfuscatedEmail, renderAt, renderDot, stage0, List.append_assoc]
  have eParAt : scanSub mParAt none (stage1 l (c1 :: w1') (c2 :: w2')) =
      stage1 l (c1 :: w1') (c2 :: w2') :=
    pass_bracket_S1 '(' ("at".toList) ')' ("@".toList) l _ w2' c2 hl h1 h2
      (by decide) (by decide) (by decide) (by decide)
  have eBrcAt : scanSub mBrcAt none (stage1 l (c1 :: w1') (c2 :: w2')) =
      stage1 l (c1 :: w1') (c2 :: w2') :=
    pass_bracket_S1 lbrace ("at".toList) rbrace ("@".toList) l _ w2' c2 hl h1 h2
      (by decide) (by decide) (by decide) (by decide)
  have eAngAt : scanSub mAngAt none (stage1 l (c1 :: w1') (c2 :: w2')) =
      stage1 l (c1 :: w1') (c2 :: w2') :=
    pass_bracket_S1 '<' ("at".toList) '>' ("@".toList) l _ w2' c2 hl h1 h2
      (by decide) (by decide) (by decide) (by decide)
  have eParDot : scanSub mParDot none (stage2 l (c1 :: w1') (c2 :: w2')) =
      stage2 l (c1 :: w1') (c2 :: w2') :=
    pass_bracket_S2 '(' ("dot".toList) ')' (".".toList) l _ _ hl h1 h2
      (by decide) (by decide) (by decide)
  have eBrcDot : scanSub mBrcDot none (stage2 l (c1 :: w1') (c2 :: w2')) =
      stage2 l (c1 :: w1') (c2 :: w2') :=
    pass_bracket_S2 lbrace ("dot".toList) rbrace (".".toList) l _ _ hl h1 h2
      (by decide) (by decide) (by decide)
  have eBrkArr : scanSub mBrkArr none (stage2 l (c1 :: w1') (c2 :: w2')) =
      stage2 l (c1 :: w1') (c2 :: w2') :=
    pass_bracket_S2 '[' ("arroba".toList) ']' ("@".toList) l _ _ hl h1 h2
      (by decide) (by decide) (by decide)
  have eParArr : scanSub mParArr none (stage2 l (c1 :: w1') (c2 :: w2')) =
      stage2 l (c1 :: w1') (c2 :: w2') :=
    pass_bracket_S2 '(' ("arroba".toList) ')' ("@".toList) l _ _ hl h1 h2
      (by decide) (by decide) (by decide)
  have eWordAt : scanSub mWordAt none (stage2 l (c1 :: w1') (c2 :: w2')) =
      stage2 l (c1 :: w1') (c2 :: w2') :=
    pass_word_S2 ("at".toList) ("@".toList) l _ _ hl h1 h2
  have eWordDot : scanSub mWordDot none (stage2 l (c1 :: w1') (c2 :: w2')) =
      stage2 l (c1 :: w1') (c2 :: w2') :=
    pass_word_S2 ("dot".toList) (".".toList) l _ _ hl h1 h2
  have eEnt64 : scanSub mEnt64 none (stage2 l (c1 :: w1') (c2 :: w2')) =
      stage2 l (c1 :: w1') (c2 :: w2') :=
    pass_lit_S2 ("#64;".toList) ("@".toList) l _ _ hl h1 h2
  have eEntX40 : scanSub mEntX40 none (stage2 l (c1 :: w1') (c2 :: w2')) =
      stage2 l (c1 :: w1') (c2 :: w2') :=
    pass_lit_S2 ("#x40;".toList) ("@".toList) l _ _ hl h1 h2
  have eCommat : scanSub mCommat none (stage2 l (c1 :: w1') (c2 :: w2')) =
      stage2 l (c1 :: w1') (c2 :: w2') :=
    pass_lit_S2 ("commat;".toList) ("@".toList) l _ _ hl h1 h2
  unfold deobfuscate_text
  rw [hshape,
    pass_uni_S0 l _ _ hl h1 h2,
    pass_u003_S0 l _ _ hl h1 h2,
    pass_brkAt_S0 l w1' w2' c1 c2 hl h1 h2,
    eParAt, eBrcAt, eAngAt,
    pass_brkDot_S1 l _ w2' c2 hl h1 h2,
    eParDot, eBrcDot, eBrkArr, eParArr, eWordAt, eWordDot, eEnt64, eEntX40,
    eCommat]

theorem tldTry_at_dot (w1' w2 : Txt) (hw2 : ∀ c ∈ w2, Char.isAlpha c = true)
    (hlen : 2 ≤ w2.length) :
    tldTry (w1' ++ ('.' :: w2)) w1'.length =
      some (w1'.length + 1 + w2.length) := by
  unfold tldTry
  rw [List.drop_left]
  simp only [takeWhile_all w2 hw2, List.drop_length, boundaryOkAfter,
    if_true, and_true]
  rw [if_pos hlen]

theorem tldTry_above (w1' w2 : Txt) (hw2 : ∀ c ∈ w2, Char.isAlpha c = true)
    (k : Nat) :
    tldTry (w1' ++ ('.' :: w2)) (w1'.length + (k + 1)) = none := by
  unfold tldTry
  rw [List.drop_append]
  show (match ('.' :: w2).drop (k + 1) with
    | c :: t =>
        if c = '.' then
          if 2 ≤ (t.takeWhile Char.isAlpha).length ∧
              boundaryOkAfter (t.drop (t.takeWhile Char.isAlpha).length) = true
          then some (w1'.length + (k + 1) + 1 + (t.takeWhile Char.isAlpha).length)
          else none
        else none
    | [] => none) = none
  rw [List.drop_succ_cons]
  cases hd : w2.drop k with
  | nil => rfl
  | cons c t =>
      have hcw : c ∈ w2 := List.drop_subset _ _ (hd ▸ List.mem_cons_self c t)
      have : c ≠ '.' := alpha_ne c '.' (hw2 c hcw) (by decide)
      simp [this]

theorem tldSearch_descend (rest3 : Txt) (i0 : Nat) :
    ∀ n, i0 ≤ n → (∀ i, i0 < i → i ≤ n → tldTry rest3 i = none) →
      tldSearch rest3 n = tldSearch rest3 i0 := by
  intro n
  induction n with
  | zero =>
      intro hle _
      have : i0 = 0 := Nat.le_zero.mp hle
      rw [this]
  | succ m ih =>
      intro hle hnone
      by_cases he : i0 = m + 1
      · rw [he]
      · have hlt : i0 ≤ m := by omega
        have hn : tldTry rest3 (m + 1) = none :=
          hnone (m + 1) (by omega) (Nat.le_refl _)
        have : tldSearch rest3 (m + 1) = tldSearch rest3 m := by
          show (match tldTry rest3 (m + 1) with
            | some k => some k
            | none => tldSearch rest3 m) = tldSearch rest3 m
          rw [hn]
        rw [this]
        exact ih hlt (fun i hi1 hi2 => hnone i hi1 (by omega))

theorem tldSearch_hit (rest3 : Txt) (i0 k : Nat)
    (h : tldTry rest3 i0 = some k) : tldSearch rest3 i0 = some k := by
  cases i0 with
  | zero => show tldTry rest3 0 = some k; exact h
  | succ n =>
      show (match tldTry rest3 (n + 1) with
        | some k => some k
        | none => tldSearch rest3 n) = some k
      rw [h]

theorem tld_full (w1' w2 : Txt) (hw2 : ∀ c ∈ w2, Char.isAlpha c = true)
    (hlen : 2 ≤ w2.length) :
    tldSearch (w1' ++ ('.' :: w2)) (w1' ++ ('.' :: w2)).length =
      some (w1' ++ ('.' :: w2)).length := by
  have hlen3 : (w1' ++ ('.' :: w2)).length = w1'.length + (1 + w2.length) := by
    simp [List.length_append]
    omega
  have hstep := tldSearch_descend (w1' ++ ('.' :: w2)) w1'.length
    ((w1' ++ ('.' :: w2)).length)
    (by omega)
    (by
      intro i hi1 hi2
      have : ∃ k, i = w1'.length + (k + 1) := ⟨i - w1'.length - 1, by omega⟩
      obtain ⟨k, rfl⟩ := this
      exact tldTry_above w1' w2 hw2 k)
  rw [hstep, tldSearch_hit _ _ _ (tldTry_at_dot w1' w2 hw2 hlen), hlen3]
  have heq : w1'.length + 1 + w2.length = w1'.length + (1 + w2.length) := by
    omega
  rw [heq]

theorem matchEmail_clean (l' w1' w2 : Txt) (lc c1 : Char)
    (hlc : lc.isAlpha = true) (hl' : ∀ c ∈ l', Char.isAlpha c = true)
    (hc1 : c1.isAlpha = true) (hw1' : ∀ c ∈ w1', Char.isAlpha c = true)
    (hw2 : ∀ c ∈ w2, Char.isAlpha c = true) (hlen : 2 ≤ w2.length) :
    matchEmail none (lc :: (l' ++ ('@' :: (c1 :: (w1' ++ ('.' :: w2)))))) =
      some (lc :: (l' ++ ('@' :: (c1 :: (w1' ++ ('.' :: w2)))))).length := by
  have hloc : (l' ++ ('@' :: (c1 :: (w1' ++ ('.' :: w2))))).takeWhile isLocalC
      = l' :=
    takeWhile_append_stop l' '@' _ (fun c hc => isLocalC_of_alpha c (hl' c hc))
      (by decide)
  have hdrop : (l' ++ ('@' :: (c1 :: (w1' ++ ('.' :: w2))))).drop l'.length =
      '@' :: (c1 :: (w1' ++ ('.' :: w2))) := List.drop_left _ _
  have hrun : (w1' ++ ('.' :: w2)).takeWhile isDomC = w1' ++ ('.' :: w2) := by
    apply takeWhile_all
    intro c hc
    rcases List.mem_append.mp hc with h | h
    · exact isDomC_of_alpha c (hw1' c h)
    · rcases List.mem_cons.mp h with rfl | h
      · decide
      · exact isDomC_of_alpha c (hw2 c h)
  have htld := tld_full w1' w2 hw2 hlen
  simp only [matchEmail, boundaryOkBefore, if_true, hloc, hdrop,
    alphanum_of_alpha lc hlc, alphanum_of_alpha c1 hc1, hrun, htld,
    if_pos rfl]
  simp [List.length_append]
  omega

theorem emailScanF_nil (f : Nat) (prev : Option Char) :
    emailScanF f prev [] = [] := by
  cases f <;> rfl

theorem emailScan_full (c : Char) (cs : Txt)
    (h : matchEmail none (c :: cs) = some (c :: cs).length) :
    emailScan (c :: cs) = [c :: cs] := by
  show emailScanF (cs.length + 1) none (c :: cs) = [c :: cs]
  have h' : matchEmail none (c :: cs) = some (cs.length + 1) := by
    rw [h]; rfl
  simp only [emailScanF, h']
  have ht : (c :: cs).take (cs.length + 1) = c :: cs := by
    have he : (cs.length + 1) = (c :: cs).length := rfl
    rw [he, List.take_length]
  have hd : (c :: cs).drop (cs.length + 1) = [] := by
    have he : (cs.length + 1) = (c :: cs).length := rfl
    rw [he, List.drop_length]
  rw [ht, hd, emailScanF_nil]

theorem recover_brk_brk (l' w1' w2' : Txt) (lc c1 c2 : Char)
    (hl : ∀ c ∈ lc :: l', Char.isAlpha c = true)
    (h1 : ∀ c ∈ c1 :: w1', Char.isAlpha c = true)
    (h2 : ∀ c ∈ c2 :: w2', Char.isAlpha c = true)
    (hlen : 2 ≤ (c2 :: w2').length) :
    recoverEmails (obfuscatedEmail (lc :: l') AtMarker.brk (c1 :: w1')
        DotMarker.brk (c2 :: w2')) =
      [(lc :: l') ++ '@' :: ((c1 :: w1') ++ '.' :: (c2 :: w2'))] := by
  unfold recoverEmails
  rw [deob_brk_brk (lc :: l') w1' w2' c1 c2 hl h1 h2]
  show emailScan (lc :: (l' ++ ('@' :: (c1 :: (w1' ++ ('.' :: (c2 :: w2'))))))) = _
  rw [emailScan_full _ _ (matchEmail_clean l' w1' (c2 :: w2') lc c1
    (hl lc (List.mem_cons_self _ _))
    (fun c hc => hl c (List.mem_cons_of_mem _ hc))
    (h1 c1 (List.mem_cons_self _ _))
    (fun c hc => h1 c (List.mem_cons_of_mem _ hc))
    h2 hlen)]
  rfl

/-- C3: de-obfuscation followed by the email-regex scan recovers the intended
address.  (i) For every alphabetic local part and domain words (TLD at least
two letters), the canonical `[at]`/`[dot]` obfuscation — the spec's example
family `"local [at] word [dot] tld"` — is recovered exactly; (ii) for every
supported at-marker (`[at]`, `(at)`, `{at}`, `<at>`, ` at `, `&#64;`,
`&#x40;`, `&commat;`) and every supported dot-marker (`[dot]`, `(dot)`,
`{dot}`, ` dot `), the obfuscated `john … example … com` is recovered to
exactly `john@example.com`. -/
theorem C3_deobfuscation_recovery :
    (∀ (l w1 w2 : Txt),
      (∀ c ∈ l, Char.isAlpha c = true) → l ≠ [] →
      (∀ c ∈ w1, Char.isAlpha c = true) → w1 ≠ [] →
      (∀ c ∈ w2, Char.isAlpha c = true) → 2 ≤ w2.length →
      recoverEmails (obfuscatedEmail l AtMarker.brk w1 DotMarker.brk w2) =
        [l ++ '@' :: (w1 ++ '.' :: w2)]) ∧
    (∀ (a : AtMarker) (d : DotMarker),
      recoverEmails (obfuscatedEmail ("john".toList) a ("example".toList) d
        ("com".toList)) = ["john@example.com".toList]) := by
  constructor
  · intro l w1 w2 hl hl0 h1 h10 h2 hlen
    obtain ⟨lc, l', rfl⟩ := List.exists_cons_of_ne_nil hl0
    obtain ⟨c1, w1', rfl⟩ := List.exists_cons_of_ne_nil h10
    have h20 : w2 ≠ [] := by
      intro hcon; rw [hcon] at hlen; simp at hlen
    obtain ⟨c2, w2', rfl⟩ := List.exists_cons_of_ne_nil h20
    exact recover_brk_brk l' w1' w2' lc c1 c2 hl h1 h2 hlen
  · intro a d
    cases a <;> cases d <;> rfl

/-- Witness for C3_deobfuscation_recovery at the spec's concrete example. -/
theorem C3_deobfuscation_recovery_witness :
    recoverEmails (obfuscatedEmail ("john".toList) AtMarker.brk
        ("example".toList) DotMarker.brk ("com".toList)) =
      ["john@example.com".toList] := by
  have h := C3_deobfuscation_recovery.1 ("john".toList) ("example".toList)
    ("com".toList) (by decide) (by decide) (by decide) (by decide) (by decide)
    (by decide)
  rw [h]
  rfl
